import Mathlib

/-!
# WSPRWindow: a verification development

Shallow embedding of `src/WSPRWindow.cc` (the WSPR window collector, spectral
accumulator, peak detector, candidate extractor and decode search) together
with theorems about it.

Conventions of the embedding:

* C `int` values that the properties range over are `Nat` or `Int`; no value
  in the modelled fragments approaches the 32-bit limits for the sizes the
  program is run with, except the `size_t` to `int` conversion of
  `numberOfSymbolSets`, which is modelled with explicit wrap-around.
* `float` magnitudes are compared only with `<` and `>`; they are modelled by
  values of a linearly ordered type.
* Collaborators that are not part of `WSPRWindow.cc` (the Fano decoder, the
  tokenizer, the candidate validity check, `waitpid`, `fork`, `fread`) are
  function parameters (oracles).
-/

set_option autoImplicit false
set_option maxRecDepth 100000

namespace WSPRWindow

/-! ## `WSPRWindow::remap` (lines 59-90) -/

/-- The 96-entry table `tokenToSymbol` of `WSPRWindow::remap`, row by row as
in the source. -/
def tokenToSymbol : List Nat :=
  [ 0, 1, 2, 3,
    0, 1, 3, 1,
    0, 2, 1, 3,
    0, 2, 3, 1,
    0, 3, 1, 2,
    0, 3, 2, 1,
    1, 0, 2, 3,
    1, 0, 3, 2,
    1, 2, 0, 3,
    1, 2, 3, 0,
    1, 3, 0, 2,
    1, 3, 2, 1,
    2, 0, 1, 3,
    2, 0, 3, 1,
    2, 1, 0, 3,
    2, 1, 3, 0,
    2, 3, 0, 1,
    2, 3, 1, 0,
    3, 0, 1, 2,
    3, 0, 2, 1,
    3, 1, 0, 2,
    3, 1, 2, 0,
    3, 2, 0, 1,
    3, 2, 1, 1 ]

/-- `WSPRWindow::remap(tokens, symbols, mapSelector)`: the output vector is
cleared and receives `tokenToSymbol[element + offset] << 6` for every token.
The result is the new content of `symbols`; the argument `symbols` is the
content before the call.  A read outside the table (undefined in C) yields 0. -/
def remap (tokens : List Nat) (symbols : List Nat) (mapSelector : Nat) : List Nat :=
  let offset := mapSelector * 4
  let cleared : List Nat := symbols.drop symbols.length
  tokens.foldl (fun out element => out ++ [(tokenToSymbol.getD (element + offset) 0) <<< 6]) cleared

/-- Row `k` of the table as a function on tokens. -/
def tableRow (k t : Nat) : Nat := tokenToSymbol.getD (4 * k + t) 0


/-! ## Spectral accumulator: the multi-shift FFT loop (lines 169-183) -/

/-- One call `fftObject->processSampleSet(samplePtr, fftOverTimePtr)`: the
shift it belongs to, the float offset of `samplePtr` inside `windowOfIQData`
and the float offset of `fftOverTimePtr` inside `fftOverTime`. -/
structure FFTCall where
  shift : Nat
  src : Int
  dst : Int
  deriving DecidableEq, Repr

/-- The inner `while (samplesLeft >= 2 * size && fftOverTimePtr < ptrLimit)` of
the FFT loop for one shift.  Pointers are float offsets.  `fuel` bounds the
number of iterations; `none` means the bound was reached with the loop
condition still true. -/
def fftWhile (size : Int) (ptrLimit : Int) (shift : Nat) :
    Nat → Int → Int → Int → Option (List FFTCall)
  | fuel, samplesLeft, fftOverTimePtr, samplePtr =>
    if samplesLeft ≥ 2 * size ∧ fftOverTimePtr < ptrLimit then
      match fuel with
      | 0 => none
      | fuel + 1 =>
        (fftWhile size ptrLimit shift fuel (samplesLeft - size * 2)
            (fftOverTimePtr + size * 2) (samplePtr + size * 2)).map
          (fun calls => FFTCall.mk shift samplePtr fftOverTimePtr :: calls)
    else some []

/-- Body of `for (int shift = 0; shift < SHIFTS; shift++)` for one value of
`shift`: the pointer set-up of lines 170-175 followed by the inner loop. -/
def fftShift (size : Int) (SHIFTS FFTS_PER_SHIFT : Nat) (sampleBufferSize : Int)
    (fuel : Nat) (shift : Nat) : Option (List FFTCall) :=
  let fftOverTimePtr : Int := 0 + shift * size * 2 * FFTS_PER_SHIFT
  let samplePtr : Int := 0 + shift * 2
  let samplesLeft : Int := sampleBufferSize - shift * 2
  let ptrLimit : Int := SHIFTS * size * 2 * FFTS_PER_SHIFT
  fftWhile size ptrLimit shift fuel samplesLeft fftOverTimePtr samplePtr

/-- The whole multi-shift FFT loop: shifts `from, from+1, ...` (`count` of
them), the calls of each shift in order. -/
def fftLoop (size : Int) (SHIFTS FFTS_PER_SHIFT : Nat) (sampleBufferSize : Int)
    (fuel : Nat) : Nat → Nat → Option (List FFTCall)
  | 0, _ => some []
  | count + 1, shift =>
    match fftShift size SHIFTS FFTS_PER_SHIFT sampleBufferSize fuel shift with
    | none => none
    | some calls =>
      (fftLoop size SHIFTS FFTS_PER_SHIFT sampleBufferSize fuel count (shift + 1)).map
        (fun later => calls ++ later)

/-- The multi-shift FFT loop of `doWork`, lines 169-183. -/
def spectralAccumulator (size : Int) (SHIFTS FFTS_PER_SHIFT : Nat) (sampleBufferSize : Int)
    (fuel : Nat) : Option (List FFTCall) :=
  fftLoop size SHIFTS FFTS_PER_SHIFT sampleBufferSize fuel SHIFTS 0

/-- Number of segments the loop transforms for `shift`, in closed form: the
segments the window still holds from float offset `2 * shift` on, capped by the
frames left from the start of the shift's region to the end of the whole
`fftOverTime` buffer. -/
def segmentsOfShift (size SHIFTS FFTS_PER_SHIFT sampleBufferSize shift : Nat) : Nat :=
  min ((sampleBufferSize - 2 * shift) / (2 * size)) ((SHIFTS - shift) * FFTS_PER_SHIFT)

/-- The calls of one shift in closed form: segment `k` is read at float offset
`2 * shift + 2 * size * k` and written at `(shift * FFTS_PER_SHIFT + k) * 2 * size`. -/
def callsOfShift (size SHIFTS FFTS_PER_SHIFT sampleBufferSize shift : Nat) : List FFTCall :=
  (List.range (segmentsOfShift size SHIFTS FFTS_PER_SHIFT sampleBufferSize shift)).map
    (fun k => FFTCall.mk shift ((2 * shift + 2 * size * k : Nat) : Int)
      (((shift * FFTS_PER_SHIFT + k) * 2 * size : Nat) : Int))

/-! ## Peak detector (lines 200-217) -/

section PeakDetector

variable {α : Type} [LinearOrder α] [Zero α]

/-- Lines 201-206: `for (i < size) if (magAcc[i] > peak) { peak = magAcc[i];
binArray[0] = i; }`.  The state is `(peak, binArray)`. -/
def firstPeakLoop (size : Nat) (magAcc : Nat → α) (peak : α) (binArray : Nat → Int) :
    α × (Nat → Int) :=
  (List.range size).foldl
    (fun st i => if magAcc i > st.1 then (magAcc i, Function.update st.2 0 (i : Int)) else st)
    (peak, binArray)

/-- Lines 210-215: `for (j < size) if (magAcc[j] > peak && magAcc[j] < threshold)
{ peak = magAcc[j]; binArray[i] = j; }`.  The state is `(peak, binArray)`. -/
def nextPeakLoop (size : Nat) (magAcc : Nat → α) (threshold : α) (i : Nat) (peak : α)
    (binArray : Nat → Int) : α × (Nat → Int) :=
  (List.range size).foldl
    (fun st j =>
      if magAcc j > st.1 ∧ magAcc j < threshold then
        (magAcc j, Function.update st.2 i (j : Int))
      else st)
    (peak, binArray)

/-- Lines 208-217 restricted to the slots `1 .. count`: for each slot,
`peak = 0.0`, the scan, then `threshold = peak`.  The state is
`(threshold, binArray)`. -/
def slotLoop (size : Nat) (magAcc : Nat → α) (count : Nat) (threshold : α)
    (binArray : Nat → Int) : α × (Nat → Int) :=
  (List.range count).foldl
    (fun st k => nextPeakLoop size magAcc st.1 (k + 1) 0 st.2)
    (threshold, binArray)

/-- The selection pass of lines 200-217: `peak = 0.0`, the scan for slot 0,
`threshold = peak`, then the slots `1 .. number - 1`.  The argument `binArray`
is the content of the array before the pass (it is allocated with `malloc` and
never initialised); the result is its content after the pass. -/
def peakSelect (size number : Nat) (magAcc : Nat → α) (binArray : Nat → Int) : Nat → Int :=
  let first := firstPeakLoop size magAcc 0 binArray
  let threshold := first.1
  (slotLoop size magAcc (number - 1) threshold first.2).2

/-- The PeakSet: slots `0 .. number - 1` of `binArray` after the pass. -/
def peakSet (size number : Nat) (magAcc : Nat → α) (binArray : Nat → Int) : List Int :=
  (List.range number).map (peakSelect size number magAcc binArray)

/-- The common shape of the two scans: over the bins `0 .. n - 1`, a bin whose
magnitude is above the running `peak` and satisfies `q` becomes the new peak and
is stored in slot `i`.  `firstPeakLoop` is the scan with no side condition,
`nextPeakLoop` the scan with `q v` being `v < threshold`. -/
def scanLoop (q : α → Prop) [DecidablePred q] (n : Nat) (magAcc : Nat → α) (i : Nat) (peak : α)
    (binArray : Nat → Int) : α × (Nat → Int) :=
  (List.range n).foldl
    (fun st j =>
      if magAcc j > st.1 ∧ q (magAcc j) then (magAcc j, Function.update st.2 i (j : Int))
      else st)
    (peak, binArray)

/-- The bins `b 0, ..., b (number - 1)` are the successive peaks of the
spectrum: each lies in the spectrum and carries a positive magnitude, `b 0`
carries the largest magnitude, `b (i + 1)` the largest magnitude strictly below
that of `b i`, and each `b i` is the lowest-index bin with its magnitude. -/
def SuccessivePeaks (size number : Nat) (magAcc : Nat → α) (b : Nat → Nat) : Prop :=
  (∀ i, i < number → b i < size) ∧
  (∀ i, i < number → 0 < magAcc (b i)) ∧
  (∀ j, j < size → magAcc j ≤ magAcc (b 0)) ∧
  (∀ i, i + 1 < number → magAcc (b (i + 1)) < magAcc (b i)) ∧
  (∀ i, i + 1 < number → ∀ j, j < size → magAcc j < magAcc (b i) →
    magAcc j ≤ magAcc (b (i + 1))) ∧
  (∀ i, i < number → ∀ j, j < b i → magAcc j ≠ magAcc (b i))

/-- The threshold in force after the slots `0 .. i` have been processed, that
is, the value of `threshold` when the scan for slot `i + 1` starts. -/
def thresholdAfter (size : Nat) (magAcc : Nat → α) (binArray : Nat → Int) (i : Nat) : α :=
  (slotLoop size magAcc i (firstPeakLoop size magAcc 0 binArray).1
    (firstPeakLoop size magAcc 0 binArray).2).1

/-- Slot `i` is assigned during the pass: the assignment `binArray[i] = j` of
the scan for slot `i` is executed at least once.  The scan starts with
`peak = 0.0`, so this happens exactly when some bin passes the test with
`peak` still zero: a positive magnitude for slot 0, a positive magnitude below
the running threshold for a later slot. -/
def slotAssigned (size : Nat) (magAcc : Nat → α) (binArray : Nat → Int) : Nat → Prop
  | 0 => ∃ j, j < size ∧ magAcc j > 0
  | i + 1 => ∃ j, j < size ∧ magAcc j > 0 ∧ magAcc j < thresholdAfter size magAcc binArray i

/-- The distinct positive magnitude values of the spectrum. -/
def positiveValues (size : Nat) (magAcc : Nat → α) : Finset α :=
  ((Finset.range size).image magAcc).filter (fun v => 0 < v)

end PeakDetector

/-! ## Candidate extractor: the local index list (lines 236-246) -/

/-- Lines 239-246: the values written to `freqBinsToProcess[0 ..]`, in index
order.  `i` runs from `-offset` to `offset` with `offset = WINDOW / 2`, entry
`i + offset` is written; `%` is C remainder (truncating). -/
def freqBinsToProcess (size : Int) (WINDOW : Nat) (currentPeakBin : Int) : List Int :=
  let offset : Int := ((WINDOW / 2 : Nat) : Int)
  (List.range (2 * (WINDOW / 2) + 1)).map
    (fun (n : Nat) =>
      let i : Int := (n : Int) - offset
      if i < 0 then
        (if currentPeakBin + i ≥ 0 then currentPeakBin + i else size + (currentPeakBin + i))
      else Int.tmod (currentPeakBin + i) size)


/-! ## Candidate extractor: the SampleRecord sequence (lines 267-302) -/

/-- The record `SpotCandidate::SampleRecord` as `doWork` fills it. -/
structure SampleRecord (α : Type) where
  centroid : α
  magnitude : α
  magSlice : List α
  r : List α
  i : List α
  timeStamp : Nat
  timeSeconds : α

section Extractor

variable {α : Type} [LinearOrderedField α]

/-- Lines 280-289: the loop over the `WINDOW` local bins of time step `t`.  The
state is `(sr, acc, accBinLoc)`; `fftOverTime` is the float buffer, `sqrt` the
library square root. -/
def binLoop (fftOverTime : Int → α) (sqrt : α → α) (size : Int) (FFTS_PER_SHIFT WINDOW : Nat)
    (freqBinsToProcess : List Int) (shift t : Nat) (sr : SampleRecord α) :
    SampleRecord α × α × α :=
  (List.range WINDOW).foldl
    (fun st bin =>
      let r := fftOverTime (shift * FFTS_PER_SHIFT * size * 2 + t * size * 2
        + freqBinsToProcess.getD bin 0 * 2)
      let i := fftOverTime (shift * FFTS_PER_SHIFT * size * 2 + t * size * 2
        + freqBinsToProcess.getD bin 0 * 2 + 1)
      let m := sqrt (r * r + i * i)
      ({ st.1 with magSlice := st.1.magSlice ++ [m], r := st.1.r ++ [r], i := st.1.i ++ [i] },
        st.2.1 + m, st.2.2 + (bin : α) * m))
    (sr, 0, 0)

/-- The aggregate magnitude `acc` of time step `t` after the bin loop. -/
def aggregate (fftOverTime : Int → α) (sqrt : α → α) (size : Int) (FFTS_PER_SHIFT WINDOW : Nat)
    (freqBinsToProcess : List Int) (deltaTime : α) (shift t : Nat) : α :=
  (binLoop fftOverTime sqrt size FFTS_PER_SHIFT WINDOW freqBinsToProcess shift t
    { centroid := 0, magnitude := 0, magSlice := [], r := [], i := [], timeStamp := t,
      timeSeconds := (t : α) * deltaTime }).2.1

/-- Lines 271-302: `for (t < FFTS_PER_SHIFT)`, with `remaining` iterations left
from time step `t` on.  A record is appended at every step; at a step whose
aggregate magnitude is not above 1.0 the degenerate record is appended and the
loop is left (`break`). -/
def timeLoop (fftOverTime : Int → α) (sqrt : α → α) (size : Int) (FFTS_PER_SHIFT WINDOW : Nat)
    (freqBinsToProcess : List Int) (deltaTime : α) (shift : Nat) :
    Nat → Nat → List (SampleRecord α) → List (SampleRecord α)
  | 0, _, candidateInfo => candidateInfo
  | remaining + 1, t, candidateInfo =>
    let sr : SampleRecord α :=
      { centroid := 0, magnitude := 0, magSlice := [], r := [], i := [], timeStamp := t,
        timeSeconds := (t : α) * deltaTime }
    let st := binLoop fftOverTime sqrt size FFTS_PER_SHIFT WINDOW freqBinsToProcess shift t sr
    let acc := st.2.1
    let accBinLoc := st.2.2
    if acc > 1 then
      timeLoop fftOverTime sqrt size FFTS_PER_SHIFT WINDOW freqBinsToProcess deltaTime shift
        remaining (t + 1)
        (candidateInfo ++ [{ st.1 with centroid := accBinLoc / acc, magnitude := acc }])
    else
      candidateInfo ++ [{ st.1 with centroid := 0, magnitude := acc }]

/-- Lines 270-302 for one shift: `candidateInfo.clear()` and the time loop. -/
def extractRecords (fftOverTime : Int → α) (sqrt : α → α) (size : Int)
    (FFTS_PER_SHIFT WINDOW : Nat) (freqBinsToProcess : List Int) (deltaTime : α) (shift : Nat) :
    List (SampleRecord α) :=
  timeLoop fftOverTime sqrt size FFTS_PER_SHIFT WINDOW freqBinsToProcess deltaTime shift
    FFTS_PER_SHIFT 0 []

end Extractor

/-! ## Symbol/decode search (lines 303-371) -/

/-- Modelled from the spec: the constant `NOMINAL_NUMBER_OF_SYMBOLS` is declared
in `WSPRWindow.h`, which is not among the sources; the spec gives 162, the
length of the array `symbols[162]` in `doWork`. -/
def NOMINAL_NUMBER_OF_SYMBOLS : Nat := 162

/-- Conversion of an unsigned value to `int` (two's complement, 32 bits). -/
def toInt32 (x : Nat) : Int :=
  if x % 2 ^ 32 < 2 ^ 31 then ((x % 2 ^ 32 : Nat) : Int) else ((x % 2 ^ 32 : Nat) : Int) - 2 ^ 32

/-- Line 314: `int numberOfSymbolSets = candidateInfo.size() -
NOMINAL_NUMBER_OF_SYMBOLS + 1;` evaluated in `size_t` (64 bits, wrapping) and
converted to `int`. -/
def numberOfSymbolSets (candidateInfoSize : Nat) : Int :=
  toInt32 ((((candidateInfoSize % 2 ^ 64) + (2 ^ 64 - NOMINAL_NUMBER_OF_SYMBOLS)) % 2 ^ 64 + 1)
    % 2 ^ 64)

/-- What a call of `fanoObject.fano` leaves behind: its return value and the
content of `data[12]` after the call. -/
structure FanoResult where
  status : Int
  data : Fin 12 → Nat

/-- Lines 335-338: `pass = false; for (auto c : data) if (c != 0) pass = true;`. -/
def payloadPass (data : Fin 12 → Nat) : Bool :=
  (List.finRange 12).foldl (fun pass c => if data c ≠ 0 then true else pass) false

/-- The collaborators of the decode search that are not part of
`WSPRWindow.cc`.  `isValid` and `tokenize` belong to the `SpotCandidate` built
from the peak bin and the record sequence; `fano` may keep state between calls,
so its result may depend on the position `(symbolSet, remapIndex)` of the call
as well as on the symbols handed to it. -/
structure Collaborators (α : Type) where
  isValid : Int → List (SampleRecord α) → Bool
  tokenize : Int → List (SampleRecord α) → List (SampleRecord α) → List Nat
  deinterleave : List Nat → List Nat
  fano : Nat → Nat → List Nat → FanoResult

/-- Observable events of the search for one candidate: a call of the decoder
and an emitted Spot (the `spot:` line on standard output), each with the window
offset and the permutation index it happens at. -/
inductive Event where
  | attempt (symbolSet remapIndex : Nat)
  | spot (symbolSet remapIndex : Nat)
  deriving DecidableEq, Repr

/-- The window offset an event happens at. -/
def Event.offset : Event → Nat
  | Event.attempt symbolSet _ => symbolSet
  | Event.spot symbolSet _ => symbolSet

/-- Lines 325-327: `symbols[index] = symbolVector[index]` for the 162 entries of
the `unsigned char` array.  A read past the end of the vector (undefined in C)
yields 0. -/
def copySymbols (symbolVector : List Nat) : List Nat :=
  (List.range 162).map (fun index => symbolVector.getD index 0 % 256)

/-- Lines 323-370: `for (remapIndex < 24)`, with `remaining` iterations left
from `remapIndex` on.  State: the vector `symbolVector`. -/
def remapLoop {α : Type} (c : Collaborators α) (symbolSet : Nat) (tokens : List Nat) :
    Nat → Nat → List Nat → List Event
  | 0, _, _ => []
  | remaining + 1, remapIndex, symbolVector =>
    let symbolVector := remap tokens symbolVector remapIndex
    let symbols := c.deinterleave (copySymbols symbolVector)
    let result := c.fano symbolSet remapIndex symbols
    if result.status ≠ 0 then
      Event.attempt symbolSet remapIndex
        :: remapLoop c symbolSet tokens remaining (remapIndex + 1) symbolVector
    else
      if payloadPass result.data then
        [Event.attempt symbolSet remapIndex, Event.spot symbolSet remapIndex]
      else
        Event.attempt symbolSet remapIndex
          :: remapLoop c symbolSet tokens remaining (remapIndex + 1) symbolVector

/-- Lines 316-319: the subset of 162 records starting at `symbolSet`. -/
def subsetAt {α : Type} (candidateInfo : List (SampleRecord α)) (symbolSet : Nat) :
    List (SampleRecord α) :=
  (List.range NOMINAL_NUMBER_OF_SYMBOLS).filterMap
    (fun index => candidateInfo.get? (index + symbolSet))

/-- Lines 315-371: `for (symbolSet < numberOfSymbolSets)`, with `remaining`
iterations left from `symbolSet` on. -/
def symbolSetLoop {α : Type} (c : Collaborators α) (currentPeakBin : Int)
    (candidateInfo : List (SampleRecord α)) : Nat → Nat → List Event
  | 0, _ => []
  | remaining + 1, symbolSet =>
    let subset := subsetAt candidateInfo symbolSet
    let tokens := c.tokenize currentPeakBin candidateInfo subset
    remapLoop c symbolSet tokens 24 0 []
      ++ symbolSetLoop c currentPeakBin candidateInfo remaining (symbolSet + 1)

/-- Lines 303-371: the search for one candidate, given its record sequence. -/
def searchCandidate {α : Type} (c : Collaborators α) (currentPeakBin : Int)
    (candidateInfo : List (SampleRecord α)) : List Event :=
  if !c.isValid currentPeakBin candidateInfo then []
  else
    symbolSetLoop c currentPeakBin candidateInfo
      (numberOfSymbolSets candidateInfo.length).toNat 0

/-- Lines 268-371 for one peak bin and one processed shift: extraction of the
record sequence followed by the search. -/
def processCandidate {α : Type} [LinearOrderedField α] (c : Collaborators α)
    (fftOverTime : Int → α) (sqrt : α → α) (size : Int) (FFTS_PER_SHIFT WINDOW : Nat)
    (deltaTime : α) (currentPeakBin : Int) (shift : Nat) : List Event :=
  searchCandidate c currentPeakBin
    (extractRecords fftOverTime sqrt size FFTS_PER_SHIFT WINDOW
      (freqBinsToProcess size WINDOW currentPeakBin) deltaTime shift)

/-- The decoder's answer at permutation index `remapIndex` for the tokens of
window offset `symbolSet`: `remap`, the copy into `symbols[162]`,
`deinterleave` and `fano`, as in lines 324-331. -/
def resultFor {α : Type} (c : Collaborators α) (symbolSet : Nat) (tokens : List Nat)
    (remapIndex : Nat) : FanoResult :=
  c.fano symbolSet remapIndex (c.deinterleave (copySymbols (remap tokens [] remapIndex)))

/-- The decoder's answer at position `(symbolSet, remapIndex)` of the search. -/
def attemptResult {α : Type} (c : Collaborators α) (currentPeakBin : Int)
    (candidateInfo : List (SampleRecord α)) (symbolSet remapIndex : Nat) : FanoResult :=
  resultFor c symbolSet
    (c.tokenize currentPeakBin candidateInfo (subsetAt candidateInfo symbolSet)) remapIndex

/-- A decode attempt is accepted: status zero and a payload byte that is not zero. -/
def accepted (result : FanoResult) : Prop :=
  result.status = 0 ∧ ∃ b : Fin 12, result.data b ≠ 0

/-- Number of Spots in a trace. -/
def spotCount (trace : List Event) : Nat :=
  (trace.filter (fun e => match e with | Event.spot _ _ => true | _ => false)).length

/-- Number of decode attempts in a trace. -/
def attemptCount (trace : List Event) : Nat :=
  (trace.filter (fun e => match e with | Event.attempt _ _ => true | _ => false)).length


/-! ### Concrete collaborators and records used to evaluate the search -/

/-- A record with aggregate magnitude 2. -/
def flatRecord : SampleRecord ℚ :=
  { centroid := 0, magnitude := 2, magSlice := [], r := [], i := [], timeStamp := 0,
    timeSeconds := 0 }

/-- Collaborators whose decoder accepts every attempt: status 0 and a payload
of twelve bytes 1.  Every candidate is valid and every record gives token 0. -/
def acceptAll : Collaborators ℚ :=
  { isValid := fun _ _ => true
    tokenize := fun _ _ subset => subset.map (fun _ => 0)
    deinterleave := fun symbols => symbols
    fano := fun _ _ _ => { status := 0, data := fun _ => 1 } }

/-- Collaborators whose decoder rejects permutation index 0 with status 1,
answers index 1 with status 0 and an all-zero payload, and accepts index 2. -/
def acceptThird : Collaborators ℚ :=
  { isValid := fun _ _ => true
    tokenize := fun _ _ subset => subset.map (fun _ => 0)
    deinterleave := fun symbols => symbols
    fano := fun _ remapIndex _ =>
      if remapIndex = 0 then { status := 1, data := fun _ => 7 }
      else if remapIndex = 1 then { status := 0, data := fun _ => 0 }
      else { status := 0, data := fun b => if b.val = 11 then 1 else 0 } }

/-- Collaborators whose decoder rejects every attempt with status 1. -/
def rejectAll : Collaborators ℚ :=
  { isValid := fun _ _ => true
    tokenize := fun _ _ subset => subset.map (fun _ => 0)
    deinterleave := fun symbols => symbols
    fano := fun _ _ _ => { status := 1, data := fun _ => 0 } }

/-! ## Collector loop and worker scheduling (lines 108-165) -/

/-- The constants of `WSPRWindow.h` used by the collector (seconds per block,
seconds captured per block, samples per second). -/
structure Constants where
  PERIOD : Nat
  PROCESSING_SIZE : Nat
  BASE_BAND : Nat

/-- Line 45: `sampleBufferSize = (int) freq * PROCESSING_SIZE * 2`. -/
def Constants.sampleBufferSize (k : Constants) : Nat :=
  k.BASE_BAND * k.PROCESSING_SIZE * 2

/-- The system calls of the collector as oracles, each indexed by the number of
earlier calls of the same kind.  `waitpid n pid` is the value returned by the
`n`-th `waitpid(pid, &status, WNOHANG)`; `freadWindow n` the count returned by
the `n`-th read of a window; `freadSkip n` the count returned by the `n`-th read
of a whole block to discard; `fork n` the value `fork()` returns (0 in the
child). -/
structure SystemCalls where
  waitpid : Nat → Int → Int
  freadWindow : Nat → Nat
  freadSkip : Nat → Nat
  fork : Nat → Int

/-- Observable actions of the collector. -/
inductive Action where
  | discardRemainder (values : Nat)
  | discardBlock (values : Nat)
  | sleep
  | terminationObserved
  | synchronize
  | capture (count : Nat)
  | spawn (pid : Int)
  | forkFailed
  | worker
  deriving DecidableEq, Repr

/-- Control points of `doWork`: the head of `while (!done)` (line 108), the head
of `while (background)` (line 119), the timing synchronisation (lines 134-148),
the capture and fork (lines 153-165), and the two ways the process ends: the
collector leaves `doWork`, the child calls `exit(0)`. -/
inductive Control where
  | loopHead
  | waitLoop
  | synchronize
  | capture
  | left
  | childExit
  deriving DecidableEq, Repr

/-- State of the collector process.  `background` and `done` are the variables
of `doWork`; the counters number the oracle calls; `spawned` counts the workers
created (successful forks seen from the parent) and `observed` the workers whose
termination the collector has observed; `actions` is the trace, oldest first. -/
structure Collector where
  control : Control
  background : Int
  done : Bool
  polls : Nat
  reads : Nat
  skips : Nat
  forks : Nat
  spawned : Nat
  observed : Nat
  actions : List Action

/-- State at entry of `doWork` (lines 92-107). -/
def Collector.initial : Collector :=
  { control := Control.loopHead, background := 0, done := false, polls := 0, reads := 0,
    skips := 0, forks := 0, spawned := 0, observed := 0, actions := [] }

/-- One step of the collector, from one control point to the next. -/
def step (k : Constants) (sys : SystemCalls) (s : Collector) : Collector :=
  match s.control with
  | Control.loopHead =>
    if s.done then { s with control := Control.left }
    else if s.background ≠ 0 then
      { s with
        control := Control.waitLoop
        actions := s.actions ++
          [Action.discardRemainder ((k.PERIOD - k.PROCESSING_SIZE) * k.BASE_BAND * 2)] }
    else { s with control := Control.synchronize }
  | Control.waitLoop =>
    if s.background ≠ 0 then
      let id := sys.waitpid s.polls s.background
      if id < 0 ∨ id = s.background then
        { s with
          background := 0
          polls := s.polls + 1
          observed := if 0 < s.background then s.observed + 1 else s.observed
          actions := s.actions ++ [Action.terminationObserved] }
      else
        if 0 = sys.freadSkip s.skips then
          { s with
            polls := s.polls + 1
            skips := s.skips + 1
            actions := s.actions ++
              [Action.discardBlock (k.PERIOD * k.BASE_BAND * 2), Action.sleep] }
        else
          { s with
            polls := s.polls + 1
            skips := s.skips + 1
            actions := s.actions ++ [Action.discardBlock (k.PERIOD * k.BASE_BAND * 2)] }
    else { s with control := Control.synchronize }
  | Control.synchronize =>
    { s with control := Control.capture, actions := s.actions ++ [Action.synchronize] }
  | Control.capture =>
    let count := sys.freadWindow s.reads
    if count < k.sampleBufferSize then
      { s with
        control := Control.loopHead
        done := true
        reads := s.reads + 1
        actions := s.actions ++ [Action.capture count] }
    else
      let background := sys.fork s.forks
      if background = 0 then
        { s with
          control := Control.childExit
          background := background
          reads := s.reads + 1
          forks := s.forks + 1
          actions := s.actions ++ [Action.capture count, Action.worker] }
      else
        { s with
          control := Control.loopHead
          background := background
          reads := s.reads + 1
          forks := s.forks + 1
          spawned := if 0 < background then s.spawned + 1 else s.spawned
          actions := s.actions ++
            [Action.capture count,
              if 0 < background then Action.spawn background else Action.forkFailed] }
  | Control.left => s
  | Control.childExit => s

/-- The scheduling invariant of the collector: while `background` holds the
pid of a worker exactly one spawned worker has not been observed terminated;
otherwise none; and the collector synchronises and captures only with
`background` cleared. -/
def Collector.Consistent (s : Collector) : Prop :=
  (0 < s.background → s.spawned = s.observed + 1) ∧
  (s.background ≤ 0 → s.spawned = s.observed) ∧
  (s.control = Control.synchronize ∨ s.control = Control.capture → s.background = 0)

/-- The collector after `n` steps from entry of `doWork`. -/
def run (k : Constants) (sys : SystemCalls) (n : Nat) : Collector :=
  (step k sys)^[n] Collector.initial

/-- The worker-status poll number `n` on `pid` reports termination: `waitpid`
returned an error or the pid (line 121). -/
@[reducible]
def SystemCalls.terminated (sys : SystemCalls) (n : Nat) (pid : Int) : Prop :=
  sys.waitpid n pid < 0 ∨ sys.waitpid n pid = pid

/-- The actions of `n` consecutive polls that find the worker running, the
first of them being skip number `skips`: each discards one whole block, and
sleeps when the read came back empty (lines 126-131). -/
def blockDiscards (k : Constants) (sys : SystemCalls) (skips n : Nat) : List Action :=
  (List.range n).flatMap
    (fun i =>
      if 0 = sys.freadSkip (skips + i) then
        [Action.discardBlock (k.PERIOD * k.BASE_BAND * 2), Action.sleep]
      else [Action.discardBlock (k.PERIOD * k.BASE_BAND * 2)])

/-- The sizes of the discarding reads among a list of actions, in order. -/
def discardedValues (actions : List Action) : List Nat :=
  actions.filterMap
    (fun a =>
      match a with
      | Action.discardRemainder values => some values
      | Action.discardBlock values => some values
      | _ => none)

/-! # Theorems -/

/-- C1 (evaluation at the failing input): with `mapSelector = 1` the tokens 1
and 3 are both sent to symbol 1 (packed 64), so row 1 of the table is not a
permutation of 0..3 and the token sequences `[1]` and `[3]` cannot be told
apart after `remap`. -/
theorem remap_selector1_collision :
    remap [1] [] 1 = [64] ∧ remap [3] [] 1 = [64] ∧
      tableRow 1 1 = 1 ∧ tableRow 1 3 = 1 ∧ (∀ t, t < 4 → tableRow 1 t ≠ 2) := by
  decide

/-- C2 (evaluation at the failing input): no selector in 0..23 realises the
tone ordering 0,1,3,2; the same holds for 1,3,2,0 and 3,2,1,0. -/
theorem remap_orderings_missing :
    (¬ ∃ k, k < 24 ∧ ∀ t, t < 4 → tableRow k t = [0, 1, 3, 2].getD t 0) ∧
    (¬ ∃ k, k < 24 ∧ ∀ t, t < 4 → tableRow k t = [1, 3, 2, 0].getD t 0) ∧
    (¬ ∃ k, k < 24 ∧ ∀ t, t < 4 → tableRow k t = [3, 2, 1, 0].getD t 0) := by
  decide

/-! ## The local index list -/

/-- Entry `n` of the local index list, for a peak bin inside the spectrum and a
window that fits: the mathematical residue of `b - WINDOW/2 + n` modulo `size`. -/
theorem freqBins_entry (size : Int) (WINDOW : Nat) (b : Int) (hW : (WINDOW : Int) ≤ size)
    (hb0 : 0 ≤ b) (hb : b < size) (n : Nat) (hn : n < 2 * (WINDOW / 2) + 1) :
    (let i : Int := (n : Int) - ((WINDOW / 2 : Nat) : Int)
      if i < 0 then
        (if b + i ≥ 0 then b + i else size + (b + i))
      else Int.tmod (b + i) size)
      = (b - ((WINDOW / 2 : Nat) : Int) + n) % size := by
  have hoff : (2 * (WINDOW / 2) : Nat) ≤ WINDOW := by omega
  have hoff' : 2 * ((WINDOW / 2 : Nat) : Int) ≤ size := by
    have : ((2 * (WINDOW / 2) : Nat) : Int) ≤ (WINDOW : Int) := by exact_mod_cast hoff
    push_cast at this
    omega
  have hn' : (n : Int) < 2 * ((WINDOW / 2 : Nat) : Int) + 1 := by exact_mod_cast hn
  simp only []
  split_ifs with h1 h2
  · have e : b - ((WINDOW / 2 : Nat) : Int) + n = b + ((n : Int) - ((WINDOW / 2 : Nat) : Int)) := by
      ring
    rw [e, Int.emod_eq_of_lt h2 (by omega)]
  · have e : b - ((WINDOW / 2 : Nat) : Int) + n
        = (size + (b + ((n : Int) - ((WINDOW / 2 : Nat) : Int)))) + size * (-1) := by ring
    rw [e, Int.add_mul_emod_self_left, Int.emod_eq_of_lt (by omega) (by omega)]
  · have hnn : 0 ≤ b + ((n : Int) - ((WINDOW / 2 : Nat) : Int)) := by omega
    have e : b - ((WINDOW / 2 : Nat) : Int) + n = b + ((n : Int) - ((WINDOW / 2 : Nat) : Int)) := by
      ring
    rw [e, Int.tmod_eq_emod hnn (by omega)]

/-- The local index list is the list of residues, for a window that fits. -/
theorem freqBins_eq_map (size : Int) (WINDOW : Nat) (b : Int) (hW : (WINDOW : Int) ≤ size)
    (hb0 : 0 ≤ b) (hb : b < size) :
    freqBinsToProcess size WINDOW b
      = (List.range (2 * (WINDOW / 2) + 1)).map
          (fun n : Nat => (b - ((WINDOW / 2 : Nat) : Int) + n) % size) := by
  unfold freqBinsToProcess
  apply List.map_congr_left
  intro n hn
  exact freqBins_entry size WINDOW b hW hb0 hb n (List.mem_range.mp hn)

/-- Distinct offsets below `size` give distinct residues. -/
theorem residue_injOn (size : Int) (c : Int) (m : Nat) (hm : (m : Int) ≤ size) :
    ∀ x ∈ List.range m, ∀ y ∈ List.range m,
      (c + (x : Int)) % size = (c + (y : Int)) % size → x = y := by
  intro x hx y hy h
  have hx' : (x : Int) < m := by exact_mod_cast List.mem_range.mp hx
  have hy' : (y : Int) < m := by exact_mod_cast List.mem_range.mp hy
  have hd : size ∣ (c + (x : Int)) - (c + (y : Int)) :=
    Int.dvd_of_emod_eq_zero (Int.emod_eq_emod_iff_emod_sub_eq_zero.mp h)
  have e : (c + (x : Int)) - (c + (y : Int)) = (x : Int) - y := by ring
  rw [e] at hd
  have hz : (x : Int) - y = 0 := by
    apply Int.eq_zero_of_abs_lt_dvd hd
    rw [abs_lt]
    constructor <;> omega
  omega

/-- C5: for an odd `WINDOW` not larger than `size` and a peak bin `b` in
`[0, size)`, the local index list has exactly `WINDOW` entries, entry `k` is
`(b - WINDOW/2 + k) mod size`, consecutive entries differ by one modulo `size`,
the middle entry is `b`, every entry lies in `[0, size)` and no entry occurs
twice. -/
theorem freqBinsToProcess_window (size : Int) (WINDOW : Nat) (b : Int)
    (hodd : WINDOW % 2 = 1) (hW : (WINDOW : Int) ≤ size) (hb0 : 0 ≤ b) (hb : b < size) :
    (freqBinsToProcess size WINDOW b).length = WINDOW ∧
    (∀ k, k < WINDOW →
      (freqBinsToProcess size WINDOW b).getD k 0
        = (b - ((WINDOW / 2 : Nat) : Int) + k) % size) ∧
    (∀ k, k + 1 < WINDOW →
      (freqBinsToProcess size WINDOW b).getD (k + 1) 0
        = ((freqBinsToProcess size WINDOW b).getD k 0 + 1) % size) ∧
    (freqBinsToProcess size WINDOW b).getD (WINDOW / 2) 0 = b ∧
    (∀ x ∈ freqBinsToProcess size WINDOW b, 0 ≤ x ∧ x < size) ∧
    (freqBinsToProcess size WINDOW b).Nodup := by
  have hlen : 2 * (WINDOW / 2) + 1 = WINDOW := by omega
  have hsz : 0 < size := by omega
  have hmap := freqBins_eq_map size WINDOW b hW hb0 hb
  rw [hlen] at hmap
  have hentry : ∀ k, k < WINDOW →
      (freqBinsToProcess size WINDOW b).getD k 0
        = (b - ((WINDOW / 2 : Nat) : Int) + k) % size := by
    intro k hk
    rw [hmap, List.getD_eq_getElem?_getD, List.getElem?_map, List.getElem?_range hk]
    rfl
  refine ⟨by rw [hmap]; simp, hentry, ?_, ?_, ?_, ?_⟩
  · intro k hk
    rw [hentry (k + 1) hk, hentry k (by omega), Int.emod_add_emod]
    congr 1
    push_cast
    ring
  · rw [hentry (WINDOW / 2) (by omega)]
    have e : b - ((WINDOW / 2 : Nat) : Int) + ((WINDOW / 2 : Nat) : Int) = b := by ring
    rw [e, Int.emod_eq_of_lt hb0 hb]
  · intro x hx
    rw [hmap, List.mem_map] at hx
    obtain ⟨n, -, rfl⟩ := hx
    exact ⟨Int.emod_nonneg _ (by omega), Int.emod_lt_of_pos _ hsz⟩
  · rw [hmap]
    exact List.Nodup.map_on (residue_injOn size (b - ((WINDOW / 2 : Nat) : Int)) WINDOW hW)
      (List.nodup_range WINDOW)

/-- Witness of C5: size 5, WINDOW 3, peak bin 0 wraps around to bin 4. -/
theorem freqBinsToProcess_window_witness :
    (3 % 2 = 1 ∧ ((3 : Nat) : Int) ≤ 5) ∧ freqBinsToProcess 5 3 0 = [4, 0, 1] ∧
      (freqBinsToProcess 5 3 0).Nodup :=
  ⟨by decide, by decide,
    (freqBinsToProcess_window 5 3 0 (by decide) (by decide) (by decide) (by decide)).2.2.2.2.2⟩

/-! ## The multi-shift FFT loop -/

/-- The inner loop runs exactly `n` times when its condition holds for the first
`n` iterations and fails afterwards, provided the fuel covers `n`. -/
theorem fftWhile_iterations (size ptrLimit : Int) (shift : Nat) :
    ∀ (n fuel : Nat) (samplesLeft fftOverTimePtr samplePtr : Int), n ≤ fuel →
      (∀ k : Nat, k < n →
        samplesLeft - size * 2 * k ≥ 2 * size ∧ fftOverTimePtr + size * 2 * k < ptrLimit) →
      ¬ (samplesLeft - size * 2 * n ≥ 2 * size ∧ fftOverTimePtr + size * 2 * n < ptrLimit) →
      fftWhile size ptrLimit shift fuel samplesLeft fftOverTimePtr samplePtr
        = some ((List.range n).map
            (fun k : Nat => FFTCall.mk shift (samplePtr + size * 2 * k)
              (fftOverTimePtr + size * 2 * k))) := by
  intro n
  induction n with
  | zero =>
    intro fuel sl fp sp _ _ hstop
    have hstop' : ¬ (sl ≥ 2 * size ∧ fp < ptrLimit) := by simpa using hstop
    unfold fftWhile
    rw [if_neg hstop']
    rfl
  | succ n ih =>
    intro fuel sl fp sp hfuel hrun hstop
    have h0 := hrun 0 (Nat.succ_pos n)
    have h0' : sl ≥ 2 * size ∧ fp < ptrLimit := by simpa using h0
    obtain ⟨fuel, rfl⟩ : ∃ f, fuel = f + 1 := ⟨fuel - 1, by omega⟩
    unfold fftWhile
    rw [if_pos h0']
    simp only []
    rw [ih fuel (sl - size * 2) (fp + size * 2) (sp + size * 2) (by omega)]
    · simp only [Option.map_some', List.range_succ_eq_map, List.map_cons, List.map_map]
      congr 2
      · simp
      · apply List.map_congr_left
        intro k _
        simp only [Function.comp, Nat.succ_eq_add_one]
        push_cast
        congr 1 <;> ring
    · intro k hk
      have := hrun (k + 1) (by omega)
      push_cast at this
      constructor
      · have := this.1; linarith
      · have := this.2; linarith
    · intro h
      apply hstop
      push_cast
      constructor
      · have := h.1; linarith
      · have := h.2; linarith

/-- The loop of one shift in closed form: with `size ≥ 1` and fuel at least
`sampleBufferSize` the inner loop terminates and issues exactly the calls of
`callsOfShift`. -/
theorem fftShift_eq (size SHIFTS FFTS_PER_SHIFT sampleBufferSize fuel shift : Nat)
    (hsize : 1 ≤ size) (hshift : shift < SHIFTS) (hfuel : sampleBufferSize ≤ fuel) :
    fftShift (size : Int) SHIFTS FFTS_PER_SHIFT (sampleBufferSize : Int) fuel shift
      = some (callsOfShift size SHIFTS FFTS_PER_SHIFT sampleBufferSize shift) := by
  have h2s : 0 < 2 * size := by omega
  set q := (sampleBufferSize - 2 * shift) / (2 * size) with hq
  set cap := (SHIFTS - shift) * FFTS_PER_SHIFT with hcap
  have hqle : q * (2 * size) ≤ sampleBufferSize - 2 * shift := Nat.div_mul_le_self _ _
  have hqlt : sampleBufferSize - 2 * shift < (q + 1) * (2 * size) := by
    have := Nat.lt_succ_self q
    rw [hq] at this ⊢
    exact (Nat.div_lt_iff_lt_mul h2s).mp this
  have hlim : SHIFTS * size * 2 * FFTS_PER_SHIFT
      = shift * size * 2 * FFTS_PER_SHIFT + size * 2 * cap := by
    obtain ⟨d, rfl⟩ : ∃ d, SHIFTS = shift + d := ⟨SHIFTS - shift, by omega⟩
    rw [hcap, Nat.add_sub_cancel_left]
    ring
  have hqfuel : q ≤ fuel := by
    have : q ≤ sampleBufferSize - 2 * shift := Nat.div_le_self _ _
    omega
  unfold fftShift callsOfShift segmentsOfShift
  rw [← hq, ← hcap]
  simp only []
  rw [fftWhile_iterations (size : Int) _ shift (min q cap) fuel _ _ _
    (le_trans (min_le_left _ _) hqfuel)]
  · congr 1
    apply List.map_congr_left
    intro k _
    congr 1
    · push_cast; ring
    · push_cast; ring
  · intro k hk
    have hkq : k + 1 ≤ q := by have := min_le_left q cap; omega
    have hkc : k + 1 ≤ cap := by have := min_le_right q cap; omega
    have h1 : (k + 1) * (2 * size) ≤ q * (2 * size) := Nat.mul_le_mul_right _ hkq
    have h2 : size * 2 * (k + 1) ≤ size * 2 * cap := Nat.mul_le_mul_left _ hkc
    have h3 : 2 * shift + (k + 1) * (2 * size) ≤ sampleBufferSize := by
      have : 0 < (k + 1) * (2 * size) := Nat.mul_pos (Nat.succ_pos k) h2s
      omega
    constructor
    · have : ((2 * shift + (k + 1) * (2 * size) : Nat) : Int) ≤ (sampleBufferSize : Int) := by
        exact_mod_cast h3
      push_cast at this
      linarith
    · have h4 : shift * size * 2 * FFTS_PER_SHIFT + size * 2 * k
          < SHIFTS * size * 2 * FFTS_PER_SHIFT := by
        rw [hlim]
        have : size * 2 * (k + 1) = size * 2 * k + size * 2 := by ring
        omega
      have : ((shift * size * 2 * FFTS_PER_SHIFT + size * 2 * k : Nat) : Int)
          < ((SHIFTS * size * 2 * FFTS_PER_SHIFT : Nat) : Int) := by exact_mod_cast h4
      push_cast at this
      linarith
  · rintro ⟨ha, hb⟩
    rcases le_total q cap with hle | hle
    · rw [min_eq_left hle] at ha
      by_cases hneg : sampleBufferSize < 2 * shift
      · have : (sampleBufferSize : Int) < 2 * (shift : Int) := by exact_mod_cast hneg
        have hk0 : (0 : Int) ≤ (size : Int) * 2 * (q : Int) := by positivity
        have hs0 : (0 : Int) < (size : Int) := by exact_mod_cast hsize
        linarith
      · have h5 : sampleBufferSize < 2 * shift + (q + 1) * (2 * size) := by omega
        have : ((sampleBufferSize : Nat) : Int)
            < ((2 * shift + (q + 1) * (2 * size) : Nat) : Int) := by exact_mod_cast h5
        push_cast at this
        linarith
    · rw [min_eq_right hle] at hb
      have : ((SHIFTS * size * 2 * FFTS_PER_SHIFT : Nat) : Int)
          = ((shift * size * 2 * FFTS_PER_SHIFT + size * 2 * cap : Nat) : Int) := by
        exact_mod_cast hlim
      push_cast at this
      linarith

/-- Every call of `callsOfShift` writes its frame inside the whole Spectrogram. -/
theorem callsOfShift_dst_bound (size SHIFTS FFTS_PER_SHIFT sampleBufferSize shift : Nat)
    (hshift : shift < SHIFTS) (k : Nat)
    (hk : k < segmentsOfShift size SHIFTS FFTS_PER_SHIFT sampleBufferSize shift) :
    (shift * FFTS_PER_SHIFT + k) * 2 * size + 2 * size ≤ SHIFTS * FFTS_PER_SHIFT * size * 2 := by
  have hkc : k + 1 ≤ (SHIFTS - shift) * FFTS_PER_SHIFT := by
    have := min_le_right ((sampleBufferSize - 2 * shift) / (2 * size))
      ((SHIFTS - shift) * FFTS_PER_SHIFT)
    unfold segmentsOfShift at hk
    omega
  obtain ⟨d, rfl⟩ : ∃ d, SHIFTS = shift + d := ⟨SHIFTS - shift, by omega⟩
  rw [Nat.add_sub_cancel_left] at hkc
  calc (shift * FFTS_PER_SHIFT + k) * 2 * size + 2 * size
      = (shift * FFTS_PER_SHIFT + (k + 1)) * (2 * size) := by ring
    _ ≤ (shift * FFTS_PER_SHIFT + d * FFTS_PER_SHIFT) * (2 * size) :=
        Nat.mul_le_mul_right _ (Nat.add_le_add_left hkc _)
    _ = (shift + d) * FFTS_PER_SHIFT * size * 2 := by ring

/-- C6 (amended): for `size ≥ 1` and a shift `s < SHIFTS` the loop of shift `s`
terminates and transforms exactly
`min ((sampleBufferSize - 2s) / (2 size)) ((SHIFTS - s) * FFTS_PER_SHIFT)`
segments (none when the window holds no whole segment from offset `2s` on);
segment `k` is read at float offset `2s + 2 size k` and written at float offset
`(s * FFTS_PER_SHIFT + k) * 2 size`; every frame lies inside the Spectrogram.
When the window holds at most `FFTS_PER_SHIFT` whole segments the count is
`min ((sampleBufferSize - 2s) / (2 size)) FFTS_PER_SHIFT` and every frame of
shift `s` lies in shift `s`'s own region. -/
theorem spectral_shift_segments (size SHIFTS FFTS_PER_SHIFT sampleBufferSize fuel shift : Nat)
    (hsize : 1 ≤ size) (hshift : shift < SHIFTS) (hfuel : sampleBufferSize ≤ fuel) :
    ∃ calls : List FFTCall,
      fftShift (size : Int) SHIFTS FFTS_PER_SHIFT (sampleBufferSize : Int) fuel shift = some calls ∧
      calls.length
        = min ((sampleBufferSize - 2 * shift) / (2 * size)) ((SHIFTS - shift) * FFTS_PER_SHIFT) ∧
      (∀ k, k < calls.length →
        calls.get? k = some (FFTCall.mk shift ((2 * shift + 2 * size * k : Nat) : Int)
          (((shift * FFTS_PER_SHIFT + k) * 2 * size : Nat) : Int))) ∧
      (∀ c ∈ calls, 0 ≤ c.dst ∧
        c.dst + 2 * (size : Int) ≤ ((SHIFTS * FFTS_PER_SHIFT * size * 2 : Nat) : Int)) ∧
      (sampleBufferSize / (2 * size) ≤ FFTS_PER_SHIFT →
        calls.length = min ((sampleBufferSize - 2 * shift) / (2 * size)) FFTS_PER_SHIFT ∧
        ∀ c ∈ calls, ((shift * FFTS_PER_SHIFT * size * 2 : Nat) : Int) ≤ c.dst ∧
          c.dst + 2 * (size : Int) ≤ (((shift + 1) * FFTS_PER_SHIFT * size * 2 : Nat) : Int)) := by
  refine ⟨callsOfShift size SHIFTS FFTS_PER_SHIFT sampleBufferSize shift,
    fftShift_eq size SHIFTS FFTS_PER_SHIFT sampleBufferSize fuel shift hsize hshift hfuel,
    ?_, ?_, ?_, ?_⟩
  · simp [callsOfShift, segmentsOfShift]
  · intro k hk
    have hk' : k < segmentsOfShift size SHIFTS FFTS_PER_SHIFT sampleBufferSize shift := by
      simpa [callsOfShift] using hk
    simp [callsOfShift, List.getElem?_range hk']
  · intro c hc
    simp only [callsOfShift, List.mem_map, List.mem_range] at hc
    obtain ⟨k, hk, rfl⟩ := hc
    have := callsOfShift_dst_bound size SHIFTS FFTS_PER_SHIFT sampleBufferSize shift hshift k hk
    constructor
    · positivity
    · simp only []
      exact_mod_cast this
  · intro hfit
    have hq : (sampleBufferSize - 2 * shift) / (2 * size) ≤ FFTS_PER_SHIFT :=
      le_trans (Nat.div_le_div_right (Nat.sub_le _ _)) hfit
    have hcap : FFTS_PER_SHIFT ≤ (SHIFTS - shift) * FFTS_PER_SHIFT :=
      Nat.le_mul_of_pos_left _ (by omega)
    constructor
    · simp only [callsOfShift, segmentsOfShift, List.length_map, List.length_range]
      rw [min_eq_left hq, min_eq_left (le_trans hq hcap)]
    · intro c hc
      simp only [callsOfShift, List.mem_map, List.mem_range] at hc
      obtain ⟨k, hk, rfl⟩ := hc
      have hkq : k + 1 ≤ FFTS_PER_SHIFT := by
        have := min_le_left ((sampleBufferSize - 2 * shift) / (2 * size))
          ((SHIFTS - shift) * FFTS_PER_SHIFT)
        unfold segmentsOfShift at hk
        omega
      have h1 : shift * FFTS_PER_SHIFT * size * 2 ≤ (shift * FFTS_PER_SHIFT + k) * 2 * size := by
        calc shift * FFTS_PER_SHIFT * size * 2 = (shift * FFTS_PER_SHIFT) * (2 * size) := by ring
          _ ≤ (shift * FFTS_PER_SHIFT + k) * (2 * size) :=
              Nat.mul_le_mul_right _ (Nat.le_add_right _ _)
          _ = (shift * FFTS_PER_SHIFT + k) * 2 * size := by ring
      have h2 : (shift * FFTS_PER_SHIFT + k) * 2 * size + 2 * size
          ≤ (shift + 1) * FFTS_PER_SHIFT * size * 2 := by
        calc (shift * FFTS_PER_SHIFT + k) * 2 * size + 2 * size
            = (shift * FFTS_PER_SHIFT + (k + 1)) * (2 * size) := by ring
          _ ≤ (shift * FFTS_PER_SHIFT + FFTS_PER_SHIFT) * (2 * size) :=
              Nat.mul_le_mul_right _ (Nat.add_le_add_left hkq _)
          _ = (shift + 1) * FFTS_PER_SHIFT * size * 2 := by ring
      constructor
      · simp only []
        exact_mod_cast h1
      · simp only []
        exact_mod_cast h2

/-- Witness of C6 (amended): size 1, two shifts of one frame each, a window of
four floats, shift 0. -/
theorem spectral_shift_segments_witness :
    ∃ calls : List FFTCall,
      fftShift ((1 : Nat) : Int) 2 1 ((4 : Nat) : Int) 4 0 = some calls ∧
      calls.length = min ((4 - 2 * 0) / (2 * 1)) ((2 - 0) * 1) := by
  obtain ⟨calls, h1, h2, -⟩ :=
    spectral_shift_segments 1 2 1 4 4 0 (by decide) (by decide) (by decide)
  exact ⟨calls, h1, h2⟩

/-- C6 (counterexample): with size 1, `SHIFTS = 2`, `FFTS_PER_SHIFT = 1` and a
window of four floats, shift 0 transforms two segments, not
`min (4 / 2) 1 = 1`, and its second frame is written at float offset 2, the
region of shift 1. -/
theorem spectral_shift_overruns_region :
    fftShift 1 2 1 4 4 0 = some [FFTCall.mk 0 0 0, FFTCall.mk 0 2 2] ∧
      ¬ ([FFTCall.mk 0 0 0, FFTCall.mk 0 2 2].length = min ((4 - 2 * 0) / (2 * 1)) 1) ∧
      ¬ (∀ c ∈ [FFTCall.mk 0 0 0, FFTCall.mk 0 2 2],
          c.dst + 2 * 1 ≤ (((0 + 1) * 1 * 1 * 2 : Nat) : Int)) := by
  refine ⟨by decide, by decide, by decide⟩

/-! ## The decode search -/

/-- The output of `remap` does not depend on the previous content of the output
vector. -/
theorem remap_clear (tokens symbols : List Nat) (mapSelector : Nat) :
    remap tokens symbols mapSelector = remap tokens [] mapSelector := by
  simp [remap]

/-- The flag loop over a list of bytes ends true exactly when it started true
or some byte satisfies the test. -/
theorem flagLoop_eq_true {β : Type} (p : β → Prop) [DecidablePred p] (l : List β) (init : Bool) :
    l.foldl (fun pass c => if p c then true else pass) init = true
      ↔ init = true ∨ ∃ c ∈ l, p c := by
  induction l generalizing init with
  | nil => simp
  | cons a l ih =>
    rw [List.foldl_cons, ih]
    by_cases ha : p a
    · simp [ha]
    · simp [ha]

/-- The payload check passes exactly when some payload byte is not zero. -/
theorem payloadPass_iff (data : Fin 12 → Nat) :
    payloadPass data = true ↔ ∃ b : Fin 12, data b ≠ 0 := by
  unfold payloadPass
  rw [flagLoop_eq_true (fun c : Fin 12 => data c ≠ 0)]
  simp [List.mem_finRange]

section Search

variable {α : Type} (c : Collaborators α)

/-- An accepted attempt ends the permutation loop with a Spot. -/
theorem remapLoop_accept (symbolSet : Nat) (tokens : List Nat) (remaining remapIndex : Nat)
    (symbolVector : List Nat) (h : accepted (resultFor c symbolSet tokens remapIndex)) :
    remapLoop c symbolSet tokens (remaining + 1) remapIndex symbolVector
      = [Event.attempt symbolSet remapIndex, Event.spot symbolSet remapIndex] := by
  have h1 : (c.fano symbolSet remapIndex (c.deinterleave
      (copySymbols (remap tokens symbolVector remapIndex)))).status = 0 := by
    rw [remap_clear]; exact h.1
  have h2 : payloadPass (c.fano symbolSet remapIndex (c.deinterleave
      (copySymbols (remap tokens symbolVector remapIndex)))).data = true := by
    rw [remap_clear]; exact (payloadPass_iff _).mpr h.2
  simp only [remapLoop, h1, h2, ne_eq, not_true_eq_false, if_false, if_true]

/-- A rejected attempt is followed by the next permutation index. -/
theorem remapLoop_reject (symbolSet : Nat) (tokens : List Nat) (remaining remapIndex : Nat)
    (symbolVector : List Nat) (h : ¬ accepted (resultFor c symbolSet tokens remapIndex)) :
    remapLoop c symbolSet tokens (remaining + 1) remapIndex symbolVector
      = Event.attempt symbolSet remapIndex
          :: remapLoop c symbolSet tokens remaining (remapIndex + 1)
              (remap tokens symbolVector remapIndex) := by
  by_cases h1 : (c.fano symbolSet remapIndex (c.deinterleave
      (copySymbols (remap tokens symbolVector remapIndex)))).status = 0
  · have h2 : ¬ payloadPass (c.fano symbolSet remapIndex (c.deinterleave
        (copySymbols (remap tokens symbolVector remapIndex)))).data = true := by
      intro hp
      apply h
      rw [remap_clear] at h1 hp
      exact ⟨h1, (payloadPass_iff _).mp hp⟩
    simp [remapLoop, h1, h2]
  · simp only [remapLoop, h1, ne_eq, not_false_eq_true, if_true]

end Search

section SearchTrace

variable {α : Type} (c : Collaborators α)

/-- The attempts of the permutation loop: index `k` is tried exactly when every
earlier index of the loop was rejected. -/
theorem mem_remapLoop_attempt (symbolSet : Nat) (tokens : List Nat) (w k : Nat) :
    ∀ (remaining remapIndex : Nat) (symbolVector : List Nat),
      Event.attempt w k ∈ remapLoop c symbolSet tokens remaining remapIndex symbolVector
        ↔ w = symbolSet ∧ remapIndex ≤ k ∧ k < remapIndex + remaining ∧
          ∀ j, remapIndex ≤ j → j < k → ¬ accepted (resultFor c symbolSet tokens j) := by
  intro remaining
  induction remaining with
  | zero =>
    intro remapIndex symbolVector
    simp only [remapLoop, List.not_mem_nil, false_iff]
    rintro ⟨-, h1, h2, -⟩
    omega
  | succ n ih =>
    intro remapIndex symbolVector
    by_cases hacc : accepted (resultFor c symbolSet tokens remapIndex)
    · rw [remapLoop_accept c _ _ _ _ _ hacc]
      simp only [List.mem_cons, Event.attempt.injEq, List.not_mem_nil, or_false, reduceCtorEq]
      constructor
      · rintro ⟨rfl, rfl⟩
        exact ⟨rfl, le_refl _, by omega, fun j h1 h2 => by omega⟩
      · rintro ⟨rfl, h1, -, h3⟩
        refine ⟨rfl, ?_⟩
        by_contra hne
        exact h3 remapIndex (le_refl _) (by omega) hacc
    · rw [remapLoop_reject c _ _ _ _ _ hacc, List.mem_cons, ih]
      simp only [Event.attempt.injEq]
      constructor
      · rintro (⟨rfl, rfl⟩ | ⟨rfl, h1, h2, h3⟩)
        · exact ⟨rfl, le_refl _, by omega, fun j h1 h2 => by omega⟩
        · refine ⟨rfl, by omega, by omega, fun j hj1 hj2 => ?_⟩
          by_cases hj : j = remapIndex
          · rw [hj]; exact hacc
          · exact h3 j (by omega) hj2
      · rintro ⟨rfl, h1, h2, h3⟩
        by_cases hk : k = remapIndex
        · exact Or.inl ⟨rfl, hk⟩
        · exact Or.inr ⟨rfl, by omega, by omega, fun j hj1 hj2 => h3 j (by omega) hj2⟩

/-- The Spots of the permutation loop: a Spot at index `k` exactly when `k` is
tried and accepted. -/
theorem mem_remapLoop_spot (symbolSet : Nat) (tokens : List Nat) (w k : Nat) :
    ∀ (remaining remapIndex : Nat) (symbolVector : List Nat),
      Event.spot w k ∈ remapLoop c symbolSet tokens remaining remapIndex symbolVector
        ↔ w = symbolSet ∧ remapIndex ≤ k ∧ k < remapIndex + remaining ∧
          (∀ j, remapIndex ≤ j → j < k → ¬ accepted (resultFor c symbolSet tokens j)) ∧
          accepted (resultFor c symbolSet tokens k) := by
  intro remaining
  induction remaining with
  | zero =>
    intro remapIndex symbolVector
    simp only [remapLoop, List.not_mem_nil, false_iff]
    rintro ⟨-, h1, h2, -⟩
    omega
  | succ n ih =>
    intro remapIndex symbolVector
    by_cases hacc : accepted (resultFor c symbolSet tokens remapIndex)
    · rw [remapLoop_accept c _ _ _ _ _ hacc]
      simp only [List.mem_cons, Event.spot.injEq, List.not_mem_nil, or_false, reduceCtorEq,
        false_or]
      constructor
      · rintro ⟨rfl, rfl⟩
        exact ⟨rfl, le_refl _, by omega, fun j h1 h2 => by omega, hacc⟩
      · rintro ⟨rfl, h1, -, h3, -⟩
        refine ⟨rfl, ?_⟩
        by_contra hne
        exact h3 remapIndex (le_refl _) (by omega) hacc
    · rw [remapLoop_reject c _ _ _ _ _ hacc, List.mem_cons, ih]
      simp only [reduceCtorEq, false_or]
      constructor
      · rintro ⟨rfl, h1, h2, h3, h4⟩
        refine ⟨rfl, by omega, by omega, fun j hj1 hj2 => ?_, h4⟩
        by_cases hj : j = remapIndex
        · rw [hj]; exact hacc
        · exact h3 j (by omega) hj2
      · rintro ⟨rfl, h1, h2, h3, h4⟩
        have hk : k ≠ remapIndex := by
          rintro rfl
          exact hacc h4
        exact ⟨rfl, by omega, by omega, fun j hj1 hj2 => h3 j (by omega) hj2, h4⟩

/-- No event occurs twice in the trace of the permutation loop. -/
theorem remapLoop_nodup (symbolSet : Nat) (tokens : List Nat) :
    ∀ (remaining remapIndex : Nat) (symbolVector : List Nat),
      (remapLoop c symbolSet tokens remaining remapIndex symbolVector).Nodup := by
  intro remaining
  induction remaining with
  | zero => intro _ _; simp [remapLoop]
  | succ n ih =>
    intro remapIndex symbolVector
    by_cases hacc : accepted (resultFor c symbolSet tokens remapIndex)
    · rw [remapLoop_accept c _ _ _ _ _ hacc]
      simp
    · rw [remapLoop_reject c _ _ _ _ _ hacc, List.nodup_cons]
      refine ⟨?_, ih _ _⟩
      rw [mem_remapLoop_attempt]
      rintro ⟨-, h, -⟩
      omega

/-- The permutation loop emits at most one Spot. -/
theorem spotCount_remapLoop_le (symbolSet : Nat) (tokens : List Nat) :
    ∀ (remaining remapIndex : Nat) (symbolVector : List Nat),
      spotCount (remapLoop c symbolSet tokens remaining remapIndex symbolVector) ≤ 1 := by
  intro remaining
  induction remaining with
  | zero => intro _ _; simp [remapLoop, spotCount]
  | succ n ih =>
    intro remapIndex symbolVector
    by_cases hacc : accepted (resultFor c symbolSet tokens remapIndex)
    · rw [remapLoop_accept c _ _ _ _ _ hacc]
      simp [spotCount]
    · rw [remapLoop_reject c _ _ _ _ _ hacc]
      have := ih (remapIndex + 1) (remap tokens symbolVector remapIndex)
      simpa [spotCount] using this

end SearchTrace

section CandidateTrace

variable {α : Type} (c : Collaborators α) (currentPeakBin : Int)
  (candidateInfo : List (SampleRecord α))

/-- The attempts of the window loop: `(w, k)` is tried exactly when `w` is one
of the offsets of the loop, `k < 24` and every earlier permutation index of
offset `w` was rejected. -/
theorem mem_symbolSetLoop_attempt (w k : Nat) :
    ∀ (remaining symbolSet : Nat),
      Event.attempt w k ∈ symbolSetLoop c currentPeakBin candidateInfo remaining symbolSet
        ↔ symbolSet ≤ w ∧ w < symbolSet + remaining ∧ k < 24 ∧
          ∀ j, j < k → ¬ accepted (attemptResult c currentPeakBin candidateInfo w j) := by
  intro remaining
  induction remaining with
  | zero =>
    intro symbolSet
    simp only [symbolSetLoop, List.not_mem_nil, false_iff]
    rintro ⟨h1, h2, -⟩
    omega
  | succ n ih =>
    intro symbolSet
    simp only [symbolSetLoop, List.mem_append, mem_remapLoop_attempt, ih]
    constructor
    · rintro (⟨rfl, -, h2, h3⟩ | ⟨h1, h2, h3, h4⟩)
      · exact ⟨le_refl _, by omega, by omega, fun j hj => h3 j (Nat.zero_le _) hj⟩
      · exact ⟨by omega, by omega, h3, h4⟩
    · rintro ⟨h1, h2, h3, h4⟩
      by_cases hw : w = symbolSet
      · subst hw
        exact Or.inl ⟨rfl, Nat.zero_le _, by omega, fun j _ hj => h4 j hj⟩
      · exact Or.inr ⟨by omega, by omega, h3, h4⟩

/-- The Spots of the window loop: a Spot at `(w, k)` exactly when `(w, k)` is
tried and accepted. -/
theorem mem_symbolSetLoop_spot (w k : Nat) :
    ∀ (remaining symbolSet : Nat),
      Event.spot w k ∈ symbolSetLoop c currentPeakBin candidateInfo remaining symbolSet
        ↔ symbolSet ≤ w ∧ w < symbolSet + remaining ∧ k < 24 ∧
          (∀ j, j < k → ¬ accepted (attemptResult c currentPeakBin candidateInfo w j)) ∧
          accepted (attemptResult c currentPeakBin candidateInfo w k) := by
  intro remaining
  induction remaining with
  | zero =>
    intro symbolSet
    simp only [symbolSetLoop, List.not_mem_nil, false_iff]
    rintro ⟨h1, h2, -⟩
    omega
  | succ n ih =>
    intro symbolSet
    simp only [symbolSetLoop, List.mem_append, mem_remapLoop_spot, ih]
    constructor
    · rintro (⟨rfl, -, h2, h3, h4⟩ | ⟨h1, h2, h3, h4, h5⟩)
      · exact ⟨le_refl _, by omega, by omega, fun j hj => h3 j (Nat.zero_le _) hj, h4⟩
      · exact ⟨by omega, by omega, h3, h4, h5⟩
    · rintro ⟨h1, h2, h3, h4, h5⟩
      by_cases hw : w = symbolSet
      · subst hw
        exact Or.inl ⟨rfl, Nat.zero_le _, by omega, fun j _ hj => h4 j hj, h5⟩
      · exact Or.inr ⟨by omega, by omega, h3, h4, h5⟩

/-- Every event of the window loop carries an offset of the loop. -/
theorem symbolSetLoop_offset_ge (e : Event) (remaining symbolSet : Nat)
    (he : e ∈ symbolSetLoop c currentPeakBin candidateInfo remaining symbolSet) :
    symbolSet ≤ e.offset := by
  cases e with
  | attempt w k => exact ((mem_symbolSetLoop_attempt c _ _ w k _ _).mp he).1
  | spot w k => exact ((mem_symbolSetLoop_spot c _ _ w k _ _).mp he).1

/-- Every event of the permutation loop carries the offset of the loop. -/
theorem remapLoop_offset_eq (e : Event) (symbolSet : Nat) (tokens : List Nat)
    (remaining remapIndex : Nat) (symbolVector : List Nat)
    (he : e ∈ remapLoop c symbolSet tokens remaining remapIndex symbolVector) :
    e.offset = symbolSet := by
  cases e with
  | attempt w k => exact ((mem_remapLoop_attempt c _ _ w k _ _ _).mp he).1
  | spot w k => exact ((mem_remapLoop_spot c _ _ w k _ _ _).mp he).1

/-- No event occurs twice in the trace of the window loop. -/
theorem symbolSetLoop_nodup :
    ∀ (remaining symbolSet : Nat),
      (symbolSetLoop c currentPeakBin candidateInfo remaining symbolSet).Nodup := by
  intro remaining
  induction remaining with
  | zero => intro _; simp [symbolSetLoop]
  | succ n ih =>
    intro symbolSet
    simp only [symbolSetLoop]
    rw [List.nodup_append]
    refine ⟨remapLoop_nodup c _ _ _ _ _, ih _, ?_⟩
    intro e he1 he2
    have h1 := remapLoop_offset_eq c e _ _ _ _ _ he1
    have h2 := symbolSetLoop_offset_ge c _ _ e _ _ he2
    omega

/-- The window loop emits at most one Spot per offset it visits. -/
theorem spotCount_symbolSetLoop_le :
    ∀ (remaining symbolSet : Nat),
      spotCount (symbolSetLoop c currentPeakBin candidateInfo remaining symbolSet)
        ≤ remaining := by
  intro remaining
  induction remaining with
  | zero => intro _; simp [symbolSetLoop, spotCount]
  | succ n ih =>
    intro symbolSet
    have h1 := spotCount_remapLoop_le c symbolSet
      (c.tokenize currentPeakBin candidateInfo (subsetAt candidateInfo symbolSet)) 24 0 []
    have h2 := ih (symbolSet + 1)
    simp only [symbolSetLoop, spotCount, List.filter_append, List.length_append] at h1 h2 ⊢
    omega

end CandidateTrace

section CandidateSearch

variable {α : Type} (c : Collaborators α) (currentPeakBin : Int)
  (candidateInfo : List (SampleRecord α))

/-- The attempts of the search for one candidate. -/
theorem mem_searchCandidate_attempt (w k : Nat) :
    Event.attempt w k ∈ searchCandidate c currentPeakBin candidateInfo
      ↔ c.isValid currentPeakBin candidateInfo = true ∧
        w < (numberOfSymbolSets candidateInfo.length).toNat ∧ k < 24 ∧
        ∀ j, j < k → ¬ accepted (attemptResult c currentPeakBin candidateInfo w j) := by
  unfold searchCandidate
  by_cases hv : c.isValid currentPeakBin candidateInfo = true
  · simp [hv, mem_symbolSetLoop_attempt]
  · simp [hv]

/-- The Spots of the search for one candidate. -/
theorem mem_searchCandidate_spot (w k : Nat) :
    Event.spot w k ∈ searchCandidate c currentPeakBin candidateInfo
      ↔ c.isValid currentPeakBin candidateInfo = true ∧
        w < (numberOfSymbolSets candidateInfo.length).toNat ∧ k < 24 ∧
        (∀ j, j < k → ¬ accepted (attemptResult c currentPeakBin candidateInfo w j)) ∧
        accepted (attemptResult c currentPeakBin candidateInfo w k) := by
  unfold searchCandidate
  by_cases hv : c.isValid currentPeakBin candidateInfo = true
  · simp [hv, mem_symbolSetLoop_spot]
  · simp [hv]

/-- No event occurs twice in the trace of a candidate. -/
theorem searchCandidate_nodup : (searchCandidate c currentPeakBin candidateInfo).Nodup := by
  unfold searchCandidate
  split_ifs
  · exact List.nodup_nil
  · exact symbolSetLoop_nodup c _ _ _ _

/-- A candidate yields at most one Spot per window offset. -/
theorem spotCount_searchCandidate_le :
    spotCount (searchCandidate c currentPeakBin candidateInfo)
      ≤ (numberOfSymbolSets candidateInfo.length).toNat := by
  unfold searchCandidate
  split_ifs
  · simp [spotCount]
  · exact spotCount_symbolSetLoop_le c _ _ _ _

end CandidateSearch

/-- C8: for a decode attempt made at `(w, k)` during the search of a candidate,
a Spot is emitted for it exactly when the decoder returned status zero and some
payload byte is not zero.  A non-zero status emits no Spot and the next
permutation index (if any) is tried; status zero with an all-zero payload emits
no Spot and the next permutation index (if any) is tried; status zero with a
non-zero payload byte emits exactly one Spot for the attempt. -/
theorem decode_attempt_spot_iff {α : Type} (c : Collaborators α) (currentPeakBin : Int)
    (candidateInfo : List (SampleRecord α)) (w k : Nat)
    (h : Event.attempt w k ∈ searchCandidate c currentPeakBin candidateInfo) :
    (Event.spot w k ∈ searchCandidate c currentPeakBin candidateInfo
      ↔ (attemptResult c currentPeakBin candidateInfo w k).status = 0 ∧
        ∃ b : Fin 12, (attemptResult c currentPeakBin candidateInfo w k).data b ≠ 0) ∧
    ((attemptResult c currentPeakBin candidateInfo w k).status ≠ 0 →
      Event.spot w k ∉ searchCandidate c currentPeakBin candidateInfo ∧
      (k + 1 < 24 → Event.attempt w (k + 1) ∈ searchCandidate c currentPeakBin candidateInfo)) ∧
    ((attemptResult c currentPeakBin candidateInfo w k).status = 0 →
      (∀ b : Fin 12, (attemptResult c currentPeakBin candidateInfo w k).data b = 0) →
      Event.spot w k ∉ searchCandidate c currentPeakBin candidateInfo ∧
      (k + 1 < 24 → Event.attempt w (k + 1) ∈ searchCandidate c currentPeakBin candidateInfo)) ∧
    ((attemptResult c currentPeakBin candidateInfo w k).status = 0 →
      (∃ b : Fin 12, (attemptResult c currentPeakBin candidateInfo w k).data b ≠ 0) →
      (searchCandidate c currentPeakBin candidateInfo).count (Event.spot w k) = 1) := by
  obtain ⟨hv, hw, hk, hrej⟩ := (mem_searchCandidate_attempt c _ _ w k).mp h
  have hnext : ¬ accepted (attemptResult c currentPeakBin candidateInfo w k) → k + 1 < 24 →
      Event.attempt w (k + 1) ∈ searchCandidate c currentPeakBin candidateInfo := by
    intro hna hk1
    rw [mem_searchCandidate_attempt]
    refine ⟨hv, hw, hk1, fun j hj => ?_⟩
    by_cases hjk : j = k
    · rw [hjk]; exact hna
    · exact hrej j (by omega)
  have hiff : Event.spot w k ∈ searchCandidate c currentPeakBin candidateInfo
      ↔ accepted (attemptResult c currentPeakBin candidateInfo w k) := by
    rw [mem_searchCandidate_spot]
    exact ⟨fun hs => hs.2.2.2.2, fun ha => ⟨hv, hw, hk, hrej, ha⟩⟩
  refine ⟨hiff, ?_, ?_, ?_⟩
  · intro hst
    have hna : ¬ accepted (attemptResult c currentPeakBin candidateInfo w k) := fun ha => hst ha.1
    exact ⟨fun hs => hna (hiff.mp hs), hnext hna⟩
  · intro _ hzero
    have hna : ¬ accepted (attemptResult c currentPeakBin candidateInfo w k) := by
      rintro ⟨-, b, hb⟩
      exact hb (hzero b)
    exact ⟨fun hs => hna (hiff.mp hs), hnext hna⟩
  · intro hst hnz
    exact List.count_eq_one_of_mem (searchCandidate_nodup c _ _) (hiff.mpr ⟨hst, hnz⟩)

/-- C3 (amended): once the attempt at `(w, k)` is accepted, no attempt is made
at a later permutation index of offset `w`, the Spot of `(w, k)` is the only
Spot of offset `w` and is emitted once; the window loop goes on with offset
`w + 1` when there is one, so a candidate yields at most one Spot per window
offset. -/
theorem accepted_stops_permutations {α : Type} (c : Collaborators α) (currentPeakBin : Int)
    (candidateInfo : List (SampleRecord α)) (w k : Nat)
    (h : Event.attempt w k ∈ searchCandidate c currentPeakBin candidateInfo)
    (hacc : accepted (attemptResult c currentPeakBin candidateInfo w k)) :
    (∀ k', k < k' → Event.attempt w k' ∉ searchCandidate c currentPeakBin candidateInfo) ∧
    (∀ k', Event.spot w k' ∈ searchCandidate c currentPeakBin candidateInfo → k' = k) ∧
    (searchCandidate c currentPeakBin candidateInfo).count (Event.spot w k) = 1 ∧
    (w + 1 < (numberOfSymbolSets candidateInfo.length).toNat →
      Event.attempt (w + 1) 0 ∈ searchCandidate c currentPeakBin candidateInfo) ∧
    spotCount (searchCandidate c currentPeakBin candidateInfo)
      ≤ (numberOfSymbolSets candidateInfo.length).toNat := by
  obtain ⟨hv, hw, hk, hrej⟩ := (mem_searchCandidate_attempt c _ _ w k).mp h
  refine ⟨?_, ?_, ?_, ?_, spotCount_searchCandidate_le c _ _⟩
  · intro k' hk' hmem
    exact ((mem_searchCandidate_attempt c _ _ w k').mp hmem).2.2.2 k hk' hacc
  · intro k' hmem
    obtain ⟨-, -, -, hrej', hacc'⟩ := (mem_searchCandidate_spot c _ _ w k').mp hmem
    rcases Nat.lt_trichotomy k' k with hlt | heq | hgt
    · exact absurd hacc' (hrej k' hlt)
    · exact heq
    · exact absurd hacc (hrej' k hgt)
  · exact List.count_eq_one_of_mem (searchCandidate_nodup c _ _)
      ((mem_searchCandidate_spot c _ _ w k).mpr ⟨hv, hw, hk, hrej, hacc⟩)
  · intro hw1
    exact (mem_searchCandidate_attempt c _ _ (w + 1) 0).mpr
      ⟨hv, hw1, by decide, fun j hj => absurd hj (Nat.not_lt_zero j)⟩

/-- Witness of C8: 162 records, a decoder that rejects index 0 by status,
index 1 by an all-zero payload and accepts index 2; the attempt at `(0, 2)` is
made and is the one that emits a Spot. -/
theorem decode_attempt_spot_iff_witness :
    Event.attempt 0 2 ∈ searchCandidate acceptThird 0 (List.replicate 162 flatRecord) ∧
      (searchCandidate acceptThird 0 (List.replicate 162 flatRecord)).count (Event.spot 0 2)
        = 1 :=
  ⟨by decide,
    (decode_attempt_spot_iff acceptThird 0 (List.replicate 162 flatRecord) 0 2
      (by decide)).2.2.2 rfl ⟨11, by decide⟩⟩

/-- Witness of C3 (amended): 163 records and a decoder that accepts everything;
the accepted attempt at `(0, 0)` is followed by no attempt at `(0, 1)`. -/
theorem accepted_stops_permutations_witness :
    Event.attempt 0 0 ∈ searchCandidate acceptAll 0 (List.replicate 163 flatRecord) ∧
      Event.attempt 0 1 ∉ searchCandidate acceptAll 0 (List.replicate 163 flatRecord) :=
  ⟨by decide,
    (accepted_stops_permutations acceptAll 0 (List.replicate 163 flatRecord) 0 0
      (by decide) ⟨rfl, ⟨0, by decide⟩⟩).1 1 (by decide)⟩

/-- C3 (counterexample): with 163 records (two window offsets) and a decoder
that accepts every attempt, the attempt at offset 0, permutation index 0 is
accepted, and yet a decode attempt is made at offset 1 and two Spots are
emitted for the candidate. -/
theorem first_accept_does_not_stop_windows :
    searchCandidate acceptAll 0 (List.replicate 163 flatRecord)
        = [Event.attempt 0 0, Event.spot 0 0, Event.attempt 1 0, Event.spot 1 0] ∧
      accepted (attemptResult acceptAll 0 (List.replicate 163 flatRecord) 0 0) ∧
      Event.attempt 1 0 ∈ searchCandidate acceptAll 0 (List.replicate 163 flatRecord) ∧
      spotCount (searchCandidate acceptAll 0 (List.replicate 163 flatRecord)) = 2 :=
  ⟨by decide, ⟨rfl, ⟨0, by decide⟩⟩, by decide, by decide⟩

section NoiseFloor

variable {α : Type} [LinearOrderedField α]

/-- The bin loop leaves the time stamp of the record alone. -/
theorem binLoop_timeStamp (fftOverTime : Int → α) (sqrt : α → α) (size : Int)
    (FFTS_PER_SHIFT WINDOW : Nat) (bins : List Int) (shift t : Nat) (sr : SampleRecord α) :
    (binLoop fftOverTime sqrt size FFTS_PER_SHIFT WINDOW bins shift t sr).1.timeStamp
      = sr.timeStamp := by
  unfold binLoop
  generalize List.range WINDOW = l
  generalize ((0 : α), (0 : α)) = z
  induction l generalizing sr z with
  | nil => rfl
  | cons b l ih =>
    rw [List.foldl_cons, ih]

/-- A first time step at or below the noise floor cuts the record sequence of
the shift to one degenerate record. -/
theorem extractRecords_degenerate (fftOverTime : Int → α) (sqrt : α → α) (size : Int)
    (FFTS_PER_SHIFT WINDOW : Nat) (bins : List Int) (deltaTime : α) (shift : Nat)
    (hF : 0 < FFTS_PER_SHIFT)
    (hlow : ¬ aggregate fftOverTime sqrt size FFTS_PER_SHIFT WINDOW bins deltaTime shift 0 > 1) :
    ∃ sr : SampleRecord α,
      extractRecords fftOverTime sqrt size FFTS_PER_SHIFT WINDOW bins deltaTime shift = [sr] ∧
      sr.centroid = 0 ∧ sr.timeStamp = 0 ∧
      sr.magnitude
        = aggregate fftOverTime sqrt size FFTS_PER_SHIFT WINDOW bins deltaTime shift 0 := by
  obtain ⟨n, rfl⟩ : ∃ n, FFTS_PER_SHIFT = n + 1 := ⟨FFTS_PER_SHIFT - 1, by omega⟩
  unfold aggregate at hlow
  unfold extractRecords
  unfold timeLoop
  simp only []
  rw [if_neg hlow]
  refine ⟨_, rfl, rfl, ?_, rfl⟩
  exact binLoop_timeStamp fftOverTime sqrt size (n + 1) WINDOW bins shift 0 _

end NoiseFloor

/-- C7: if the aggregate magnitude over the local bins is at or below the noise
floor 1.0 at every time step of the shift, the record sequence is one degenerate
record (centroid 0), shorter than `NOMINAL_NUMBER_OF_SYMBOLS`; the number of
symbol sets is not positive, no decode attempt is made and no Spot is emitted,
whatever the validity check, the tokenizer and the decoder answer. -/
theorem below_noise_floor_no_spot {α : Type} [LinearOrderedField α] (c : Collaborators α)
    (fftOverTime : Int → α) (sqrt : α → α) (size : Int) (FFTS_PER_SHIFT WINDOW : Nat)
    (deltaTime : α) (currentPeakBin : Int) (shift : Nat) (hF : 0 < FFTS_PER_SHIFT)
    (hlow : ∀ t, t < FFTS_PER_SHIFT →
      ¬ aggregate fftOverTime sqrt size FFTS_PER_SHIFT WINDOW
          (freqBinsToProcess size WINDOW currentPeakBin) deltaTime shift t > 1) :
    (∃ sr : SampleRecord α,
      extractRecords fftOverTime sqrt size FFTS_PER_SHIFT WINDOW
          (freqBinsToProcess size WINDOW currentPeakBin) deltaTime shift = [sr] ∧
        sr.centroid = 0 ∧ ¬ sr.magnitude > 1) ∧
    (extractRecords fftOverTime sqrt size FFTS_PER_SHIFT WINDOW
        (freqBinsToProcess size WINDOW currentPeakBin) deltaTime shift).length
      < NOMINAL_NUMBER_OF_SYMBOLS ∧
    numberOfSymbolSets (extractRecords fftOverTime sqrt size FFTS_PER_SHIFT WINDOW
        (freqBinsToProcess size WINDOW currentPeakBin) deltaTime shift).length ≤ 0 ∧
    processCandidate c fftOverTime sqrt size FFTS_PER_SHIFT WINDOW deltaTime currentPeakBin shift
      = [] ∧
    attemptCount (processCandidate c fftOverTime sqrt size FFTS_PER_SHIFT WINDOW deltaTime
      currentPeakBin shift) = 0 ∧
    spotCount (processCandidate c fftOverTime sqrt size FFTS_PER_SHIFT WINDOW deltaTime
      currentPeakBin shift) = 0 := by
  obtain ⟨sr, hsr, hcen, -, hmag⟩ :=
    extractRecords_degenerate fftOverTime sqrt size FFTS_PER_SHIFT WINDOW
      (freqBinsToProcess size WINDOW currentPeakBin) deltaTime shift hF (hlow 0 hF)
  have hnum : numberOfSymbolSets 1 = -160 := by decide
  have hproc : processCandidate c fftOverTime sqrt size FFTS_PER_SHIFT WINDOW deltaTime
      currentPeakBin shift = [] := by
    unfold processCandidate searchCandidate
    rw [hsr]
    split_ifs
    · rfl
    · simp only [List.length_singleton, hnum]
      rfl
  refine ⟨⟨sr, hsr, hcen, ?_⟩, ?_, ?_, hproc, ?_, ?_⟩
  · rw [hmag]; exact hlow 0 hF
  · rw [hsr]; simp [NOMINAL_NUMBER_OF_SYMBOLS]
  · rw [hsr, List.length_singleton, hnum]; decide
  · rw [hproc]; rfl
  · rw [hproc]; rfl

/-- Witness of C7: an all-zero Spectrogram (size 4, two frames per shift,
WINDOW 3, peak bin 1) with collaborators that would accept anything. -/
theorem below_noise_floor_no_spot_witness :
    (∀ t, t < 2 →
      ¬ aggregate (fun _ => (0 : ℚ)) (fun x => x) 4 2 3 (freqBinsToProcess 4 3 1) 1 0 t > 1) ∧
    processCandidate acceptAll (fun _ => (0 : ℚ)) (fun x => x) 4 2 3 1 1 0 = [] :=
  ⟨fun t _ => by simp [aggregate, binLoop, List.range_succ],
    (below_noise_floor_no_spot acceptAll (fun _ => (0 : ℚ)) (fun x => x) 4 2 3 1 1 0
      (by decide) (fun t _ => by simp [aggregate, binLoop, List.range_succ])).2.2.2.1⟩

/-! ## The collector and its worker -/

/-- The scheduling invariant holds at entry of `doWork`. -/
theorem initial_consistent : Collector.initial.Consistent := by
  refine ⟨?_, ?_, ?_⟩ <;> simp [Collector.initial]

/-- Every step of the collector preserves the scheduling invariant. -/
theorem step_consistent (k : Constants) (sys : SystemCalls) (s : Collector)
    (h : s.Consistent) : (step k sys s).Consistent := by
  obtain ⟨h1, h2, h3⟩ := h
  have hcases : 0 < s.background ∨ s.background ≤ 0 := by omega
  unfold Collector.Consistent step
  cases hc : s.control with
  | loopHead =>
    simp only []
    split_ifs with hd hb
    · exact ⟨h1, h2, by simp⟩
    · exact ⟨h1, h2, by simp⟩
    · exact ⟨h1, h2, fun _ => by simpa using hb⟩
  | waitLoop =>
    simp only []
    split_ifs with hb hid hpos hz
    · exact ⟨fun hp => by simp at hp, fun _ => by simp only []; rw [h1 hpos], by simp⟩
    · exact ⟨fun hp => by simp at hp, fun _ => h2 (by omega), by simp⟩
    · exact ⟨h1, h2, by simp⟩
    · exact ⟨h1, h2, by simp⟩
    · exact ⟨h1, h2, fun _ => by simpa using hb⟩
  | synchronize =>
    have hb := h3 (Or.inl hc)
    exact ⟨h1, h2, fun _ => hb⟩
  | capture =>
    have hb := h3 (Or.inr hc)
    have hso := h2 (by omega)
    simp only []
    split_ifs with hcount hchild hpos
    · exact ⟨h1, h2, by simp⟩
    · exact ⟨fun hp => by simp only [] at hp; omega, fun _ => hso, by simp⟩
    · exact ⟨fun _ => by simp only []; rw [hso], fun hn => by simp only [] at hn; omega, by simp⟩
    · exact ⟨fun hp => by simp only [] at hp; omega, fun _ => hso, by simp⟩
  | left => exact ⟨h1, h2, by simp [hc]⟩
  | childExit => exact ⟨h1, h2, by simp [hc]⟩

/-- The scheduling invariant holds in every reachable state. -/
theorem run_consistent (k : Constants) (sys : SystemCalls) (n : Nat) :
    (run k sys n).Consistent := by
  induction n with
  | zero => exact initial_consistent
  | succ n ih =>
    unfold run at ih ⊢
    rw [Function.iterate_succ_apply']
    exact step_consistent k sys _ ih

/-- A step changes the number of spawned workers only at the capture point, by
a successful fork, and then by one. -/
theorem step_spawned (k : Constants) (sys : SystemCalls) (s : Collector)
    (h : (step k sys s).spawned ≠ s.spawned) :
    s.control = Control.capture ∧ (step k sys s).spawned = s.spawned + 1 ∧
      0 < (step k sys s).background := by
  unfold step at h ⊢
  cases hc : s.control with
  | loopHead => rw [hc] at h; simp only [] at h; split_ifs at h <;> simp at h
  | waitLoop => rw [hc] at h; simp only [] at h; split_ifs at h <;> simp at h
  | synchronize => rw [hc] at h; simp at h
  | capture =>
    rw [hc] at h
    simp only [] at h ⊢
    split_ifs at h ⊢ with hcount hchild hpos <;> simp_all
  | left => rw [hc] at h; simp at h
  | childExit => rw [hc] at h; simp at h

/-- C10: in every reachable state of the collector loop, whatever `waitpid`,
`fork` and the reads return, the workers spawned and not yet observed terminated
number at most one; and a step that spawns a worker starts in a state where
`background` is cleared and every worker spawned so far has been observed
terminated. -/
theorem at_most_one_worker (k : Constants) (sys : SystemCalls) (n : Nat) :
    (run k sys n).observed ≤ (run k sys n).spawned ∧
    (run k sys n).spawned ≤ (run k sys n).observed + 1 ∧
    ((run k sys (n + 1)).spawned ≠ (run k sys n).spawned →
      (run k sys n).background = 0 ∧ (run k sys n).spawned = (run k sys n).observed ∧
      (run k sys (n + 1)).spawned = (run k sys n).spawned + 1) := by
  obtain ⟨h1, h2, h3⟩ := run_consistent k sys n
  have hcases : 0 < (run k sys n).background ∨ (run k sys n).background ≤ 0 := by omega
  refine ⟨?_, ?_, ?_⟩
  · rcases hcases with hp | hn
    · rw [h1 hp]; omega
    · rw [h2 hn]
  · rcases hcases with hp | hn
    · rw [h1 hp]
    · rw [h2 hn]; omega
  · intro hne
    have hstep : run k sys (n + 1) = step k sys (run k sys n) := by
      unfold run
      rw [Function.iterate_succ_apply']
    rw [hstep] at hne ⊢
    obtain ⟨hcap, hinc, -⟩ := step_spawned k sys _ hne
    have hb := h3 (Or.inr hcap)
    exact ⟨hb, h2 (by omega), hinc⟩

/-! ## The peak detector -/

section PeakScan

variable {α : Type} [LinearOrder α]

/-- The scan for slot 0 is the scan without side condition. -/
theorem firstPeakLoop_eq_scanLoop (size : Nat) (magAcc : Nat → α) (peak : α)
    (binArray : Nat → Int) :
    firstPeakLoop size magAcc peak binArray
      = scanLoop (fun _ => True) size magAcc 0 peak binArray := by
  unfold firstPeakLoop scanLoop
  congr 1
  funext st i
  simp

/-- The scan for a later slot is the scan with the threshold as side condition. -/
theorem nextPeakLoop_eq_scanLoop (size : Nat) (magAcc : Nat → α) (threshold : α) (i : Nat)
    (peak : α) (binArray : Nat → Int) :
    nextPeakLoop size magAcc threshold i peak binArray
      = scanLoop (fun v => v < threshold) size magAcc i peak binArray := rfl

/-- One more bin of the scan. -/
theorem scanLoop_succ (q : α → Prop) [DecidablePred q] (n : Nat) (magAcc : Nat → α) (i : Nat)
    (peak : α) (binArray : Nat → Int) :
    scanLoop q (n + 1) magAcc i peak binArray
      = (if magAcc n > (scanLoop q n magAcc i peak binArray).1 ∧ q (magAcc n) then
          (magAcc n, Function.update (scanLoop q n magAcc i peak binArray).2 i (n : Int))
        else scanLoop q n magAcc i peak binArray) := by
  unfold scanLoop
  rw [List.range_succ, List.foldl_append]
  rfl

/-- Loop invariant of the scan after `n` bins: either no bin so far is above the
initial peak and satisfies the side condition, and nothing has changed; or the
state holds the largest admissible magnitude seen and slot `i` holds the
lowest-index bin that attains it. -/
theorem scanLoop_spec (q : α → Prop) [DecidablePred q] (magAcc : Nat → α) (i : Nat)
    (peak : α) (binArray : Nat → Int) (n : Nat) :
    ((∀ j, j < n → ¬ (peak < magAcc j ∧ q (magAcc j))) ∧
      scanLoop q n magAcc i peak binArray = (peak, binArray)) ∨
    (∃ b, b < n ∧ peak < magAcc b ∧ q (magAcc b) ∧
      scanLoop q n magAcc i peak binArray = (magAcc b, Function.update binArray i (b : Int)) ∧
      (∀ j, j < n → q (magAcc j) → magAcc j ≤ magAcc b) ∧
      (∀ j, j < b → q (magAcc j) → magAcc j < magAcc b)) := by
  induction n with
  | zero =>
    left
    exact ⟨fun j hj => absurd hj (Nat.not_lt_zero j), rfl⟩
  | succ n ih =>
    rw [scanLoop_succ]
    rcases ih with ⟨hnone, hst⟩ | ⟨b, hb, hpb, hqb, hst, hmax, hfirst⟩
    · rw [hst]
      by_cases hn : magAcc n > peak ∧ q (magAcc n)
      · right
        rw [if_pos hn]
        have hle : ∀ j, j < n → q (magAcc j) → magAcc j ≤ peak := by
          intro j hj hq
          by_contra hlt
          exact hnone j hj ⟨not_le.mp hlt, hq⟩
        refine ⟨n, Nat.lt_succ_self n, hn.1, hn.2, rfl, ?_, ?_⟩
        · intro j hj hq
          rcases Nat.lt_succ_iff_lt_or_eq.mp hj with hlt | heq
          · exact le_of_lt (lt_of_le_of_lt (hle j hlt hq) hn.1)
          · rw [heq]
        · intro j hj hq
          exact lt_of_le_of_lt (hle j hj hq) hn.1
      · left
        rw [if_neg hn]
        refine ⟨?_, rfl⟩
        intro j hj
        rcases Nat.lt_succ_iff_lt_or_eq.mp hj with hlt | heq
        · exact hnone j hlt
        · rw [heq]; exact hn
    · right
      rw [hst]
      by_cases hn : magAcc n > magAcc b ∧ q (magAcc n)
      · rw [if_pos hn]
        refine ⟨n, Nat.lt_succ_self n, lt_trans hpb hn.1, hn.2, ?_, ?_, ?_⟩
        · simp only []
          rw [Function.update_idem]
        · intro j hj hq
          rcases Nat.lt_succ_iff_lt_or_eq.mp hj with hlt | heq
          · exact le_of_lt (lt_of_le_of_lt (hmax j hlt hq) hn.1)
          · rw [heq]
        · intro j hj hq
          exact lt_of_le_of_lt (hmax j hj hq) hn.1
      · rw [if_neg hn]
        refine ⟨b, Nat.lt_succ_of_lt hb, hpb, hqb, rfl, ?_, hfirst⟩
        intro j hj hq
        rcases Nat.lt_succ_iff_lt_or_eq.mp hj with hlt | heq
        · exact hmax j hlt hq
        · rw [heq]
          by_contra hlt
          exact hn ⟨not_le.mp hlt, heq ▸ hq⟩

end PeakScan

section PeakSlots

variable {α : Type} [LinearOrder α] [Zero α]

/-- One more slot of the slot loop. -/
theorem slotLoop_succ (size : Nat) (magAcc : Nat → α) (count : Nat) (threshold : α)
    (binArray : Nat → Int) :
    slotLoop size magAcc (count + 1) threshold binArray
      = nextPeakLoop size magAcc (slotLoop size magAcc count threshold binArray).1 (count + 1) 0
          (slotLoop size magAcc count threshold binArray).2 := by
  unfold slotLoop
  rw [List.range_succ, List.foldl_append]
  rfl

/-- The scan for slot 0 finds the lowest-index bin with the largest magnitude. -/
theorem firstPeakLoop_peak (size number : Nat) (magAcc : Nat → α) (b : Nat → Nat)
    (binArray : Nat → Int) (hnum : 0 < number) (hp : SuccessivePeaks size number magAcc b) :
    firstPeakLoop size magAcc 0 binArray
      = (magAcc (b 0), Function.update binArray 0 ((b 0 : Nat) : Int)) := by
  obtain ⟨hin, hpos, htop, -, -, hfirst⟩ := hp
  rw [firstPeakLoop_eq_scanLoop]
  rcases scanLoop_spec (fun _ => True) magAcc 0 (0 : α) binArray size with
    ⟨hnone, -⟩ | ⟨j, hj, -, -, hst, hmax, hlow⟩
  · exact absurd ⟨hpos 0 hnum, trivial⟩ (hnone (b 0) (hin 0 hnum))
  · have heq : magAcc j = magAcc (b 0) :=
      le_antisymm (htop j hj) (hmax (b 0) (hin 0 hnum) trivial)
    have hjb : j = b 0 := by
      rcases Nat.lt_trichotomy j (b 0) with h | h | h
      · exact absurd heq (hfirst 0 hnum j h)
      · exact h
      · exact absurd (hlow (b 0) h trivial) (by rw [heq]; exact lt_irrefl _)
    rw [hst, hjb]

/-- The scan for slot `i + 1`, started with the magnitude of `b i` as threshold,
finds `b (i + 1)`. -/
theorem nextPeakLoop_peak (size number : Nat) (magAcc : Nat → α) (b : Nat → Nat)
    (binArray : Nat → Int) (i : Nat) (hi : i + 1 < number)
    (hp : SuccessivePeaks size number magAcc b) :
    nextPeakLoop size magAcc (magAcc (b i)) (i + 1) 0 binArray
      = (magAcc (b (i + 1)), Function.update binArray (i + 1) ((b (i + 1) : Nat) : Int)) := by
  obtain ⟨hin, hpos, -, hdec, hnext, hfirst⟩ := hp
  rw [nextPeakLoop_eq_scanLoop]
  rcases scanLoop_spec (fun v => v < magAcc (b i)) magAcc (i + 1) (0 : α) binArray size with
    ⟨hnone, -⟩ | ⟨j, hj, -, hq, hst, hmax, hlow⟩
  · exact absurd ⟨hpos (i + 1) hi, hdec i hi⟩ (hnone (b (i + 1)) (hin (i + 1) hi))
  · have heq : magAcc j = magAcc (b (i + 1)) :=
      le_antisymm (hnext i hi j hj hq) (hmax (b (i + 1)) (hin (i + 1) hi) (hdec i hi))
    have hjb : j = b (i + 1) := by
      rcases Nat.lt_trichotomy j (b (i + 1)) with h | h | h
      · exact absurd heq (hfirst (i + 1) hi j h)
      · exact h
      · exact absurd (hlow (b (i + 1)) h (hdec i hi)) (by rw [heq]; exact lt_irrefl _)
    rw [hst, hjb]

/-- State of the slot loop after `count` slots: the threshold is the magnitude
of `b count`, the slots `0 .. count` hold `b 0 .. b count`, every other slot is
as before the pass. -/
theorem slotLoop_peaks (size number : Nat) (magAcc : Nat → α) (b : Nat → Nat)
    (binArray : Nat → Int) (hp : SuccessivePeaks size number magAcc b) :
    ∀ count, count < number →
      slotLoop size magAcc count (magAcc (b 0))
          (Function.update binArray 0 ((b 0 : Nat) : Int))
        = (magAcc (b count), fun i => if i ≤ count then ((b i : Nat) : Int) else binArray i) := by
  intro count
  induction count with
  | zero =>
    intro _
    unfold slotLoop
    simp only [List.range_zero, List.foldl_nil]
    congr 1
    funext i
    by_cases hi : i = 0
    · subst hi; simp
    · rw [Function.update_noteq hi, if_neg (by omega)]
  | succ n ih =>
    intro hn
    rw [slotLoop_succ, ih (by omega)]
    simp only []
    rw [nextPeakLoop_peak size number magAcc b _ n hn hp]
    congr 1
    funext i
    by_cases hi : i = n + 1
    · subst hi; simp
    · rw [Function.update_noteq hi]
      by_cases hle : i ≤ n
      · rw [if_pos hle, if_pos (by omega)]
      · rw [if_neg hle, if_neg (by omega)]

/-- The selection pass on a spectrum with successive peaks `b`: slot `i` ends up
holding `b i` for `i < number`, every other slot keeps its content. -/
theorem peakSelect_peaks (size number : Nat) (magAcc : Nat → α) (b : Nat → Nat)
    (binArray : Nat → Int) (hnum : 0 < number) (hp : SuccessivePeaks size number magAcc b) :
    peakSelect size number magAcc binArray
      = fun i => if i ≤ number - 1 then ((b i : Nat) : Int) else binArray i := by
  unfold peakSelect
  simp only []
  rw [firstPeakLoop_peak size number magAcc b binArray hnum hp]
  simp only []
  rw [slotLoop_peaks size number magAcc b binArray hp (number - 1) (by omega)]

/-- The PeakSet of a spectrum with successive peaks `b` is `b 0, ..., b (number - 1)`. -/
theorem peakSet_peaks (size number : Nat) (magAcc : Nat → α) (b : Nat → Nat)
    (binArray : Nat → Int) (hnum : 0 < number) (hp : SuccessivePeaks size number magAcc b) :
    peakSet size number magAcc binArray = (List.range number).map (fun i => ((b i : Nat) : Int)) := by
  unfold peakSet
  rw [peakSelect_peaks size number magAcc b binArray hnum hp]
  apply List.map_congr_left
  intro i hi
  have := List.mem_range.mp hi
  exact if_pos (by omega)

end PeakSlots

section DistinctMaxima

variable {α : Type} [LinearOrder α]

/-- Strictly decreasing magnitudes along `b` are weakly decreasing between any
two slots. -/
theorem magnitudes_antitone (number : Nat) (magAcc : Nat → α) (b : Nat → Nat)
    (hdec : ∀ j, j < number → ∀ i, i < j → magAcc (b j) < magAcc (b i))
    (i j : Nat) (hij : i ≤ j) (hj : j < number) : magAcc (b j) ≤ magAcc (b i) := by
  rcases Nat.lt_or_eq_of_le hij with h | h
  · exact le_of_lt (hdec j hj i h)
  · rw [h]

variable [Zero α]

/-- Distinct strictly decreasing positive maxima above every other bin are the
successive peaks of the spectrum. -/
theorem successivePeaks_of_distinct_maxima (size number : Nat) (magAcc : Nat → α) (b : Nat → Nat)
    (hnum : 1 ≤ number)
    (hin : ∀ i, i < number → b i < size)
    (hdec : ∀ j, j < number → ∀ i, i < j → magAcc (b j) < magAcc (b i))
    (hpos : ∀ i, i < number → 0 < magAcc (b i))
    (hrest : ∀ j, j < size → (∀ i, i < number → b i ≠ j) →
      magAcc j < magAcc (b (number - 1))) :
    SuccessivePeaks size number magAcc b := by
  have hanti := magnitudes_antitone number magAcc b hdec
  have hlast : ∀ i, i < number → magAcc (b (number - 1)) ≤ magAcc (b i) :=
    fun i hi => hanti i (number - 1) (by omega) (by omega)
  refine ⟨hin, hpos, ?_, ?_, ?_, ?_⟩
  · intro j hj
    by_cases hex : ∃ l, l < number ∧ b l = j
    · obtain ⟨l, hl, rfl⟩ := hex
      exact hanti 0 l (Nat.zero_le l) hl
    · have hne : ∀ i, i < number → b i ≠ j := fun i hi h => hex ⟨i, hi, h⟩
      exact le_of_lt (lt_of_lt_of_le (hrest j hj hne) (hlast 0 (by omega)))
  · intro i hi
    exact hdec (i + 1) hi i (Nat.lt_succ_self i)
  · intro i hi j hj hlt
    by_cases hex : ∃ l, l < number ∧ b l = j
    · obtain ⟨l, hl, rfl⟩ := hex
      have hil : i < l := by
        by_contra hle
        exact absurd hlt (not_lt.mpr (hanti l i (by omega) (by omega)))
      exact hanti (i + 1) l hil hl
    · have hne : ∀ i, i < number → b i ≠ j := fun i hi h => hex ⟨i, hi, h⟩
      exact le_of_lt (lt_of_lt_of_le (hrest j hj hne) (hlast (i + 1) hi))
  · intro i hi j hj heq
    have hjs : j < size := lt_trans hj (hin i hi)
    by_cases hex : ∃ l, l < number ∧ b l = j
    · obtain ⟨l, hl, rfl⟩ := hex
      rcases Nat.lt_trichotomy l i with h | h | h
      · exact absurd heq (ne_of_gt (hdec i hi l h))
      · rw [h] at hj; exact lt_irrefl _ hj
      · exact absurd heq (ne_of_lt (hdec l hl i h))
    · have hne : ∀ i, i < number → b i ≠ j := fun i hi h => hex ⟨i, hi, h⟩
      exact absurd heq (ne_of_lt (lt_of_lt_of_le (hrest j hjs hne) (hlast i hi)))

end DistinctMaxima

/-- C4: if `number ≥ 1` bins `b 0, ..., b (number - 1)` of the spectrum carry
positive, strictly decreasing magnitudes and every other bin has a magnitude
strictly below that of `b (number - 1)`, then, whatever the array held before,
the PeakSet after the selection pass is exactly `b 0, ..., b (number - 1)`. -/
theorem peakSet_distinct_maxima {α : Type} [LinearOrder α] [Zero α] (size number : Nat)
    (magAcc : Nat → α) (b : Nat → Nat) (binArray : Nat → Int)
    (hnum : 1 ≤ number)
    (hin : ∀ i, i < number → b i < size)
    (hdec : ∀ j, j < number → ∀ i, i < j → magAcc (b j) < magAcc (b i))
    (hpos : ∀ i, i < number → 0 < magAcc (b i))
    (hrest : ∀ j, j < size → (∀ i, i < number → b i ≠ j) →
      magAcc j < magAcc (b (number - 1))) :
    peakSet size number magAcc binArray
      = (List.range number).map (fun i => ((b i : Nat) : Int)) :=
  peakSet_peaks size number magAcc b binArray hnum
    (successivePeaks_of_distinct_maxima size number magAcc b hnum hin hdec hpos hrest)

/-- Witness of C4: the spectrum 5, 9, 2, 7 with three peaks at bins 1, 3, 0 and
an array that held -1 in every slot. -/
theorem peakSet_distinct_maxima_witness :
    peakSet 4 3 (fun j => [5, 9, 2, 7].getD j (0 : Nat)) (fun _ => -1) = [1, 3, 0] :=
  peakSet_distinct_maxima 4 3 (fun j => [5, 9, 2, 7].getD j (0 : Nat))
    (fun i => [1, 3, 0].getD i 0) (fun _ => -1)
    (by decide) (by decide) (by decide) (by decide) (by decide)

section EnoughValues

variable {α : Type} [LinearOrder α] [Zero α]

/-- Membership in the set of distinct positive magnitude values. -/
theorem mem_positiveValues (size : Nat) (magAcc : Nat → α) (x : α) :
    x ∈ positiveValues size magAcc ↔ (∃ j, j < size ∧ magAcc j = x) ∧ 0 < x := by
  simp [positiveValues]

/-- A spectrum with at least `number` distinct positive magnitude values has
successive peaks `b 0, ..., b (number - 1)`. -/
theorem exists_successivePeaks (size number : Nat) (magAcc : Nat → α) (hnum : 0 < number)
    (hcard : number ≤ (positiveValues size magAcc).card) :
    ∃ b : Nat → Nat, SuccessivePeaks size number magAcc b := by
  set L := (positiveValues size magAcc).sort (fun x y => x ≥ y) with hL
  have hlen : L.length = (positiveValues size magAcc).card := Finset.length_sort _
  have hsorted : L.Pairwise (fun x y => x ≥ y) := Finset.sort_sorted _ _
  have hnd : L.Nodup := Finset.sort_nodup _ _
  have hmem : ∀ x, x ∈ L ↔ x ∈ positiveValues size magAcc := fun x => Finset.mem_sort _
  have hv : ∀ i (h : i < L.length), L.getD i 0 = L[i] := fun i h => List.getD_eq_getElem _ _ h
  have hstrict : ∀ i j, i < j → j < L.length → L.getD j 0 < L.getD i 0 := by
    intro i j hij hj
    have hi : i < L.length := lt_trans hij hj
    rw [hv i hi, hv j hj]
    have h1 : L[i] ≥ L[j] := List.pairwise_iff_getElem.mp hsorted i j hi hj hij
    have h2 : L[j] ≠ L[i] := fun h => by
      have := (hnd.getElem_inj_iff).mp h
      omega
    exact lt_of_le_of_ne h1 h2
  have hanti : ∀ i j, i ≤ j → j < L.length → L.getD j 0 ≤ L.getD i 0 := by
    intro i j hij hj
    rcases Nat.lt_or_eq_of_le hij with h | h
    · exact le_of_lt (hstrict i j h hj)
    · rw [h]
  have hvmem : ∀ i, i < L.length → L.getD i 0 ∈ positiveValues size magAcc := by
    intro i hi
    rw [hv i hi, ← hmem]
    exact List.getElem_mem hi
  have hidx : ∀ j, j < size → 0 < magAcc j → ∃ l, l < L.length ∧ L.getD l 0 = magAcc j := by
    intro j hj hpos
    have : magAcc j ∈ L := (hmem _).mpr ((mem_positiveValues size magAcc _).mpr ⟨⟨j, hj, rfl⟩, hpos⟩)
    obtain ⟨l, hl, hlj⟩ := List.mem_iff_getElem.mp this
    exact ⟨l, hl, by rw [hv l hl, hlj]⟩
  have hb : ∀ i, ∃ bi, i < number →
      (bi < size ∧ magAcc bi = L.getD i 0 ∧ ∀ j, j < bi → magAcc j ≠ L.getD i 0) := by
    intro i
    by_cases hi : i < number
    · have hex : ∃ j, j < size ∧ magAcc j = L.getD i 0 :=
        ((mem_positiveValues size magAcc _).mp (hvmem i (by omega))).1
      refine ⟨Nat.find hex, fun _ =>
        ⟨(Nat.find_spec hex).1, (Nat.find_spec hex).2, fun j hj hmj => ?_⟩⟩
      exact Nat.find_min hex hj ⟨lt_trans hj (Nat.find_spec hex).1, hmj⟩
    · exact ⟨0, fun h => absurd h hi⟩
  choose b hb using hb
  have hval : ∀ i, i < number → magAcc (b i) = L.getD i 0 := fun i hi => (hb i hi).2.1
  have hpos : ∀ i, i < number → 0 < L.getD i 0 := fun i hi =>
    ((mem_positiveValues size magAcc _).mp (hvmem i (by omega))).2
  refine ⟨b, fun i hi => (hb i hi).1, fun i hi => by rw [hval i hi]; exact hpos i hi,
    ?_, ?_, ?_, ?_⟩
  · intro j hj
    rw [hval 0 hnum]
    by_cases hp : 0 < magAcc j
    · obtain ⟨l, hl, hlj⟩ := hidx j hj hp
      rw [← hlj]
      exact hanti 0 l (Nat.zero_le l) hl
    · exact le_trans (not_lt.mp hp) (le_of_lt (hpos 0 hnum))
  · intro i hi
    rw [hval (i + 1) hi, hval i (by omega)]
    exact hstrict i (i + 1) (Nat.lt_succ_self i) (by omega)
  · intro i hi j hj hlt
    rw [hval i (by omega)] at hlt
    rw [hval (i + 1) hi]
    by_cases hp : 0 < magAcc j
    · obtain ⟨l, hl, hlj⟩ := hidx j hj hp
      rw [← hlj] at hlt ⊢
      have hil : i < l := by
        by_contra hle
        exact absurd hlt (not_lt.mpr (hanti l i (by omega) (by omega)))
      exact hanti (i + 1) l hil hl
    · exact le_trans (not_lt.mp hp) (le_of_lt (hpos (i + 1) hi))
  · intro i hi j hj
    rw [hval i hi]
    exact (hb i hi).2.2 j hj

end EnoughValues

/-- C9 (amended): for a spectrum that has at least `number ≥ 1` distinct
positive magnitude values, whatever the array held before, the PeakSet after
the selection pass holds `number` bin indices that all lie in `[0, size)` and
none of which is repeated. -/
theorem peakSet_invariant {α : Type} [LinearOrder α] [Zero α] (size number : Nat)
    (magAcc : Nat → α) (binArray : Nat → Int) (hnum : 1 ≤ number)
    (hcard : number ≤ (positiveValues size magAcc).card) :
    (peakSet size number magAcc binArray).length = number ∧
    (∀ x ∈ peakSet size number magAcc binArray, 0 ≤ x ∧ x < (size : Int)) ∧
    (peakSet size number magAcc binArray).Nodup := by
  obtain ⟨b, hp⟩ := exists_successivePeaks size number magAcc hnum hcard
  have hset := peakSet_peaks size number magAcc b binArray hnum hp
  obtain ⟨hin, -, -, hdec, -, -⟩ := hp
  have hstrict : ∀ j, j < number → ∀ i, i < j → magAcc (b j) < magAcc (b i) := by
    intro j
    induction j with
    | zero => intro _ i hi; exact absurd hi (Nat.not_lt_zero i)
    | succ n ih =>
      intro hn i hi
      rcases Nat.lt_succ_iff_lt_or_eq.mp hi with h | h
      · exact lt_trans (hdec n hn) (ih (by omega) i h)
      · rw [h]; exact hdec n hn
  refine ⟨by rw [hset]; simp, ?_, ?_⟩
  · intro x hx
    rw [hset, List.mem_map] at hx
    obtain ⟨i, hi, rfl⟩ := hx
    have := hin i (List.mem_range.mp hi)
    constructor
    · positivity
    · exact_mod_cast this
  · rw [hset]
    apply List.Nodup.map_on _ (List.nodup_range number)
    intro i hi j hj hij
    have hi := List.mem_range.mp hi
    have hj := List.mem_range.mp hj
    have hbij : b i = b j := by exact_mod_cast hij
    rcases Nat.lt_trichotomy i j with h | h | h
    · exact absurd (congrArg magAcc hbij) (ne_of_gt (hstrict j hj i h))
    · exact h
    · exact absurd (congrArg magAcc hbij) (ne_of_lt (hstrict i hi j h))

/-- Witness of C9 (amended): the spectrum 5, 9, 5, 7 has three distinct positive
values; two peaks are asked for. -/
theorem peakSet_invariant_witness :
    (2 ≤ (positiveValues 4 (fun j => [5, 9, 5, 7].getD j (0 : Nat))).card) ∧
      (peakSet 4 2 (fun j => [5, 9, 5, 7].getD j (0 : Nat)) (fun _ => -1)).Nodup :=
  ⟨by decide,
    (peakSet_invariant 4 2 (fun j => [5, 9, 5, 7].getD j (0 : Nat)) (fun _ => -1)
      (by decide) (by decide)).2.2⟩

/-- C9 (counterexample): on the two-bin spectrum 5, 5 with `number = 2` and an
array that held 0 in both slots, slot 1 is never assigned; the PeakSet is
`[0, 0]`, in which bin 0 is repeated.  With 9 in the array before the pass the
PeakSet is `[0, 9]` and 9 is not a bin of the spectrum. -/
theorem peakSet_repeats_bin :
    peakSet 2 2 (fun _ => (5 : Nat)) (fun _ => 0) = [0, 0] ∧
      ¬ (peakSet 2 2 (fun _ => (5 : Nat)) (fun _ => 0)).Nodup ∧
      peakSet 2 2 (fun _ => (5 : Nat)) (fun _ => 9) = [0, 9] ∧
      ¬ (∀ x ∈ peakSet 2 2 (fun _ => (5 : Nat)) (fun _ => 9), 0 ≤ x ∧ x < ((2 : Nat) : Int)) := by
  refine ⟨by decide, by decide, by decide, by decide⟩

/-! ## The packed output of `remap` -/

/-- The push-back loop of `remap` appends the image of every token. -/
theorem pushLoop_eq_map (f : Nat → Nat) (tokens out : List Nat) :
    tokens.foldl (fun out element => out ++ [f element]) out = out ++ tokens.map f := by
  induction tokens generalizing out with
  | nil => simp
  | cons t ts ih => rw [List.foldl_cons, ih]; simp

/-- In closed form `remap` maps every token through the selected row and shifts
the symbol left by six bits. -/
theorem remap_eq_map (tokens symbols : List Nat) (mapSelector : Nat) :
    remap tokens symbols mapSelector
      = tokens.map (fun element => tokenToSymbol.getD (element + mapSelector * 4) 0 <<< 6) := by
  unfold remap
  simp only [List.drop_length]
  rw [pushLoop_eq_map]
  rfl

/-- Every entry of the table is one of 0, 1, 2, 3. -/
theorem tokenToSymbol_entry_lt (i : Nat) (hi : i < 96) : tokenToSymbol.getD i 0 < 4 := by
  revert i
  decide

/-- C15: for tokens over 0..3, a selector `k` in 0..23 and any prior content of
the output vector, `remap` replaces the output by a sequence as long as the
tokens whose `i`-th element is `tokenToSymbol[4k + tokens[i]] * 64`; every table
index used lies in 0..95 and every output value is one of 0, 64, 128, 192, so it
is below 256 and the copy into the `unsigned char` array keeps it. -/
theorem remap_packed (tokens symbols : List Nat) (k : Nat) (hk : k < 24)
    (htok : ∀ t ∈ tokens, t < 4) :
    remap tokens symbols k = tokens.map (fun t => tokenToSymbol.getD (4 * k + t) 0 * 64) ∧
    (remap tokens symbols k).length = tokens.length ∧
    (∀ i, i < tokens.length →
      (remap tokens symbols k).getD i 0 = tokenToSymbol.getD (4 * k + tokens.getD i 0) 0 * 64) ∧
    (∀ t ∈ tokens, t + k * 4 < tokenToSymbol.length ∧ t + k * 4 ≤ 95) ∧
    (∀ x ∈ remap tokens symbols k, (x = 0 ∨ x = 64 ∨ x = 128 ∨ x = 192) ∧ x % 256 = x) ∧
    (∀ i, i < 162 → i < tokens.length →
      (copySymbols (remap tokens symbols k)).getD i 0 = (remap tokens symbols k).getD i 0) := by
  have hmap : remap tokens symbols k
      = tokens.map (fun t => tokenToSymbol.getD (4 * k + t) 0 * 64) := by
    rw [remap_eq_map]
    apply List.map_congr_left
    intro t _
    rw [Nat.shiftLeft_eq, Nat.add_comm t, Nat.mul_comm k 4]
  have hval : ∀ x ∈ remap tokens symbols k,
      (x = 0 ∨ x = 64 ∨ x = 128 ∨ x = 192) ∧ x % 256 = x := by
    intro x hx
    rw [hmap, List.mem_map] at hx
    obtain ⟨t, ht, rfl⟩ := hx
    have h4 := tokenToSymbol_entry_lt (4 * k + t) (by have := htok t ht; omega)
    omega
  have hlen : (remap tokens symbols k).length = tokens.length := by rw [hmap]; simp
  refine ⟨hmap, hlen, ?_, ?_, hval, ?_⟩
  · intro i hi
    rw [hmap, List.getD_eq_getElem _ _ (by simpa using hi), List.getElem_map,
      List.getD_eq_getElem tokens 0 hi]
  · intro t ht
    have := htok t ht
    have hl : tokenToSymbol.length = 96 := by decide
    rw [hl]
    omega
  · intro i hi hit
    unfold copySymbols
    rw [List.getD_eq_getElem?_getD, List.getElem?_map, List.getElem?_range hi]
    simp only [Option.map_some', Option.getD_some]
    have hmem : (remap tokens symbols k).getD i 0 ∈ remap tokens symbols k := by
      rw [List.getD_eq_getElem _ _ (by omega)]
      exact List.getElem_mem _
    exact (hval _ hmem).2

/-- Witness of C15: the tokens 0, 1, 2, 3 under selector 2 (row 0, 2, 1, 3) with
stale content in the output vector. -/
theorem remap_packed_witness : remap [0, 1, 2, 3] [7, 7] 2 = [0, 128, 64, 192] :=
  (remap_packed [0, 1, 2, 3] [7, 7] 2 (by decide) (by decide)).1

/-! ## Bounds of the whole multi-shift FFT loop -/

/-- Every call of `callsOfShift` reads its segment inside the window. -/
theorem callsOfShift_src_bound (size SHIFTS FFTS_PER_SHIFT sampleBufferSize shift : Nat)
    (hsize : 1 ≤ size) (k : Nat)
    (hk : k < segmentsOfShift size SHIFTS FFTS_PER_SHIFT sampleBufferSize shift) :
    2 * shift + 2 * size * k + 2 * size ≤ sampleBufferSize := by
  have hkq : k + 1 ≤ (sampleBufferSize - 2 * shift) / (2 * size) := by
    have := min_le_left ((sampleBufferSize - 2 * shift) / (2 * size))
      ((SHIFTS - shift) * FFTS_PER_SHIFT)
    unfold segmentsOfShift at hk
    omega
  have h1 : (k + 1) * (2 * size) ≤ sampleBufferSize - 2 * shift :=
    le_trans (Nat.mul_le_mul_right _ hkq) (Nat.div_mul_le_self _ _)
  have h2 : (k + 1) * (2 * size) = 2 * size * k + 2 * size := by ring
  have h3 : 0 < 2 * size * k + 2 * size := by omega
  omega

/-- The shifts `shift, shift + 1, ...` of the FFT loop terminate and issue only
calls of the closed form. -/
theorem fftLoop_calls (size SHIFTS FFTS_PER_SHIFT sampleBufferSize fuel : Nat)
    (hsize : 1 ≤ size) (hfuel : sampleBufferSize ≤ fuel) :
    ∀ count shift, shift + count ≤ SHIFTS →
      ∃ calls : List FFTCall,
        fftLoop (size : Int) SHIFTS FFTS_PER_SHIFT (sampleBufferSize : Int) fuel count shift
          = some calls ∧
        ∀ c ∈ calls, ∃ s, s < SHIFTS ∧
          c ∈ callsOfShift size SHIFTS FFTS_PER_SHIFT sampleBufferSize s := by
  intro count
  induction count with
  | zero =>
    intro shift _
    exact ⟨[], rfl, fun c hc => absurd hc (List.not_mem_nil c)⟩
  | succ n ih =>
    intro shift hs
    obtain ⟨later, hlater, hmem⟩ := ih (shift + 1) (by omega)
    refine ⟨callsOfShift size SHIFTS FFTS_PER_SHIFT sampleBufferSize shift ++ later, ?_, ?_⟩
    · unfold fftLoop
      rw [fftShift_eq size SHIFTS FFTS_PER_SHIFT sampleBufferSize fuel shift hsize (by omega)
        hfuel]
      simp only []
      rw [hlater]
      rfl
    · intro c hc
      rcases List.mem_append.mp hc with h | h
      · exact ⟨shift, by omega, h⟩
      · exact hmem c h

/-- C16: for `size ≥ 1` and any `SHIFTS`, `FFTS_PER_SHIFT` and window length,
the multi-shift FFT loop terminates (fuel `sampleBufferSize` is never
exhausted), and every transform call reads `2 * size` floats inside the window
`[0, sampleBufferSize)` and writes `2 * size` floats inside the Spectrogram
buffer `[0, SHIFTS * FFTS_PER_SHIFT * size * 2)`. -/
theorem spectralAccumulator_in_bounds (size SHIFTS FFTS_PER_SHIFT sampleBufferSize fuel : Nat)
    (hsize : 1 ≤ size) (hfuel : sampleBufferSize ≤ fuel) :
    ∃ calls : List FFTCall,
      spectralAccumulator (size : Int) SHIFTS FFTS_PER_SHIFT (sampleBufferSize : Int) fuel
        = some calls ∧
      ∀ c ∈ calls,
        (0 ≤ c.src ∧ c.src + 2 * (size : Int) ≤ (sampleBufferSize : Int)) ∧
        (0 ≤ c.dst ∧
          c.dst + 2 * (size : Int) ≤ ((SHIFTS * FFTS_PER_SHIFT * size * 2 : Nat) : Int)) := by
  obtain ⟨calls, hcalls, hmem⟩ :=
    fftLoop_calls size SHIFTS FFTS_PER_SHIFT sampleBufferSize fuel hsize hfuel SHIFTS 0
      (by omega)
  refine ⟨calls, hcalls, fun c hc => ?_⟩
  obtain ⟨s, hs, hcs⟩ := hmem c hc
  simp only [callsOfShift, List.mem_map, List.mem_range] at hcs
  obtain ⟨k, hk, rfl⟩ := hcs
  have h1 := callsOfShift_src_bound size SHIFTS FFTS_PER_SHIFT sampleBufferSize s hsize k hk
  have h2 := callsOfShift_dst_bound size SHIFTS FFTS_PER_SHIFT sampleBufferSize s hs k hk
  refine ⟨⟨by positivity, ?_⟩, ⟨by positivity, ?_⟩⟩
  · simp only []
    exact_mod_cast h1
  · simp only []
    exact_mod_cast h2

/-- Witness of C16: size 1, two shifts of one frame each and a window of four
floats; three calls are issued. -/
theorem spectralAccumulator_in_bounds_witness :
    ∃ calls : List FFTCall,
      spectralAccumulator ((1 : Nat) : Int) 2 1 ((4 : Nat) : Int) 4 = some calls ∧
      ∀ c ∈ calls, 0 ≤ c.src ∧ c.src + 2 * ((1 : Nat) : Int) ≤ ((4 : Nat) : Int) := by
  obtain ⟨calls, h1, h2⟩ := spectralAccumulator_in_bounds 1 2 1 4 4 (by decide) (by decide)
  exact ⟨calls, h1, fun c hc => (h2 c hc).1⟩

/-! ## The exhaustive search -/

/-- For a record sequence whose length fits an `int`, the number of symbol sets
is the length minus 161, or zero when the sequence is shorter than 162. -/
theorem numberOfSymbolSets_toNat (L : Nat) (hL : L < 2 ^ 31) :
    (numberOfSymbolSets L).toNat = L - 161 := by
  unfold numberOfSymbolSets toInt32 NOMINAL_NUMBER_OF_SYMBOLS
  norm_num at hL ⊢
  split_ifs <;> omega

/-- The subset of window offset `w` is the 162 consecutive records from
position `w` on, all inside the sequence. -/
theorem subsetAt_window {α : Type} (candidateInfo : List (SampleRecord α)) (w : Nat)
    (hw : w + 162 ≤ candidateInfo.length) :
    subsetAt candidateInfo w = (candidateInfo.drop w).take 162 := by
  obtain ⟨d⟩ : Nonempty (SampleRecord α) := by
    cases candidateInfo with
    | nil => simp at hw
    | cons a _ => exact ⟨a⟩
  have hsome : ∀ index ∈ List.range NOMINAL_NUMBER_OF_SYMBOLS,
      candidateInfo.get? (index + w)
        = (some ∘ fun index => candidateInfo.getD (index + w) d) index := by
    intro index hindex
    have hlt : index < 162 := List.mem_range.mp hindex
    have hin : index + w < candidateInfo.length := by omega
    simp [List.getD_eq_getElem _ _ hin, List.getElem?_eq_getElem hin]
  unfold subsetAt
  rw [List.filterMap_congr hsome, List.filterMap_eq_map]
  apply List.ext_getElem?
  intro n
  rw [List.getElem?_map, List.getElem?_take, List.getElem?_drop]
  by_cases hn : n < 162
  · have hin : n + w < candidateInfo.length := by omega
    have hn' : n < NOMINAL_NUMBER_OF_SYMBOLS := hn
    rw [List.getElem?_range hn', if_pos hn, Nat.add_comm w n, List.getElem?_eq_getElem hin]
    simp only [Option.map_some']
    rw [List.getD_eq_getElem _ _ hin]
  · rw [if_neg hn, List.getElem?_eq_none (by simpa [NOMINAL_NUMBER_OF_SYMBOLS] using hn)]
    rfl

section Exhaustive

variable {α : Type} (c : Collaborators α)

/-- A permutation loop in which every attempt is rejected tries all remaining
permutation indices in ascending order. -/
theorem remapLoop_all_rejected (symbolSet : Nat) (tokens : List Nat)
    (hrej : ∀ k, ¬ accepted (resultFor c symbolSet tokens k)) :
    ∀ (remaining remapIndex : Nat) (symbolVector : List Nat),
      remapLoop c symbolSet tokens remaining remapIndex symbolVector
        = (List.range' remapIndex remaining).map (fun k => Event.attempt symbolSet k) := by
  intro remaining
  induction remaining with
  | zero => intro _ _; rfl
  | succ n ih =>
    intro remapIndex symbolVector
    rw [remapLoop_reject c _ _ _ _ _ (hrej remapIndex), ih, List.range'_succ, List.map_cons]

/-- A window loop in which every attempt is rejected tries, for each of its
offsets in ascending order, all 24 permutation indices in ascending order. -/
theorem symbolSetLoop_all_rejected (currentPeakBin : Int)
    (candidateInfo : List (SampleRecord α))
    (hrej : ∀ w k, ¬ accepted (attemptResult c currentPeakBin candidateInfo w k)) :
    ∀ (remaining symbolSet : Nat),
      symbolSetLoop c currentPeakBin candidateInfo remaining symbolSet
        = (List.range' symbolSet remaining).flatMap
            (fun w => (List.range 24).map (fun k => Event.attempt w k)) := by
  intro remaining
  induction remaining with
  | zero => intro _; rfl
  | succ n ih =>
    intro symbolSet
    unfold symbolSetLoop
    simp only []
    rw [remapLoop_all_rejected c _ _ (hrej symbolSet), ih, List.range'_succ symbolSet n,
      List.flatMap_cons]
    simp only [List.range_eq_range']

end Exhaustive

/-- The trace of all attempts over `n` offsets holds `n * 24` attempts and no Spot. -/
theorem exhaustive_counts (n : Nat) :
    attemptCount ((List.range n).flatMap
        (fun w => (List.range 24).map (fun k => Event.attempt w k))) = n * 24 ∧
      spotCount ((List.range n).flatMap
        (fun w => (List.range 24).map (fun k => Event.attempt w k))) = 0 := by
  induction n with
  | zero => exact ⟨rfl, rfl⟩
  | succ n ih =>
    obtain ⟨h1, h2⟩ := ih
    unfold attemptCount at h1 ⊢
    unfold spotCount at h2 ⊢
    rw [List.range_succ, List.flatMap_append, List.filter_append, List.filter_append,
      List.length_append, List.length_append, h1, h2]
    constructor
    · simp [List.filter_map, Function.comp_def]
      ring
    · simp [List.filter_map, Function.comp_def]

/-- C14: for a valid candidate with `L` records (`L` fitting an `int`) all of
whose decode attempts are rejected, the trace of the search consists of the
attempts at the window offsets `0 .. L - 162` in ascending order and, within
each offset, at the permutation indices `0 .. 23` in ascending order: exactly
`max 0 (L - 161) * 24` attempts and no Spot.  The attempt at offset `w` works
on the 162 consecutive records at positions `w .. w + 161`, every index being
inside the sequence. -/
theorem exhaustive_search_shape {α : Type} (c : Collaborators α) (currentPeakBin : Int)
    (candidateInfo : List (SampleRecord α))
    (hvalid : c.isValid currentPeakBin candidateInfo = true)
    (hL : candidateInfo.length < 2 ^ 31)
    (hrej : ∀ w k, ¬ accepted (attemptResult c currentPeakBin candidateInfo w k)) :
    searchCandidate c currentPeakBin candidateInfo
      = (List.range (candidateInfo.length - 161)).flatMap
          (fun w => (List.range 24).map (fun k => Event.attempt w k)) ∧
    attemptCount (searchCandidate c currentPeakBin candidateInfo)
      = (candidateInfo.length - 161) * 24 ∧
    spotCount (searchCandidate c currentPeakBin candidateInfo) = 0 ∧
    (∀ w, w < candidateInfo.length - 161 →
      subsetAt candidateInfo w = (candidateInfo.drop w).take 162 ∧
      (subsetAt candidateInfo w).length = 162 ∧
      ∀ i, i < 162 → w + i < candidateInfo.length ∧
        (subsetAt candidateInfo w).get? i = candidateInfo.get? (w + i)) := by
  have htrace : searchCandidate c currentPeakBin candidateInfo
      = (List.range (candidateInfo.length - 161)).flatMap
          (fun w => (List.range 24).map (fun k => Event.attempt w k)) := by
    unfold searchCandidate
    rw [hvalid]
    simp only [Bool.not_true, Bool.false_eq_true, if_false]
    rw [symbolSetLoop_all_rejected c _ _ hrej, numberOfSymbolSets_toNat _ hL,
      ← List.range_eq_range']
  refine ⟨htrace, ?_, ?_, ?_⟩
  · rw [htrace]; exact (exhaustive_counts _).1
  · rw [htrace]; exact (exhaustive_counts _).2
  · intro w hw
    have hsub := subsetAt_window candidateInfo w (by omega)
    refine ⟨hsub, ?_, ?_⟩
    · rw [hsub, List.length_take, List.length_drop]
      omega
    · intro i hi
      refine ⟨by omega, ?_⟩
      rw [hsub, List.get?_eq_getElem?, List.get?_eq_getElem?, List.getElem?_take, if_pos hi,
        List.getElem?_drop]

/-- Witness of C14: 163 records and a decoder that rejects everything give
`2 * 24 = 48` attempts and no Spot. -/
theorem exhaustive_search_shape_witness :
    attemptCount (searchCandidate rejectAll 0 (List.replicate 163 flatRecord)) = 48 ∧
      spotCount (searchCandidate rejectAll 0 (List.replicate 163 flatRecord)) = 0 :=
  ⟨(exhaustive_search_shape rejectAll 0 (List.replicate 163 flatRecord) rfl (by decide)
      (fun _ _ h => by simpa [attemptResult, resultFor, rejectAll] using h.1)).2.1,
    (exhaustive_search_shape rejectAll 0 (List.replicate 163 flatRecord) rfl (by decide)
      (fun _ _ h => by simpa [attemptResult, resultFor, rejectAll] using h.1)).2.2.1⟩

/-! ## Short reads and the drop-overrun policy -/

/-- A short read at the capture point: no fork, no worker, `done` is set. -/
theorem step_capture_short (k : Constants) (sys : SystemCalls) (s : Collector)
    (hc : s.control = Control.capture)
    (hshort : sys.freadWindow s.reads < k.sampleBufferSize) :
    step k sys s
      = { s with
          control := Control.loopHead
          done := true
          reads := s.reads + 1
          actions := s.actions ++ [Action.capture (sys.freadWindow s.reads)] } := by
  unfold step
  rw [hc]
  simp only []
  rw [if_pos hshort]

/-- A full read at the capture point is followed by `fork`. -/
theorem step_capture_full (k : Constants) (sys : SystemCalls) (s : Collector)
    (hc : s.control = Control.capture)
    (hfull : ¬ sys.freadWindow s.reads < k.sampleBufferSize) :
    (step k sys s).forks = s.forks + 1 := by
  unfold step
  rw [hc]
  simp only []
  rw [if_neg hfull]
  split_ifs <;> rfl

/-- Once the collector has left `doWork` nothing happens any more. -/
theorem iterate_left (k : Constants) (sys : SystemCalls) (s : Collector)
    (hc : s.control = Control.left) (m : Nat) : (step k sys)^[m] s = s := by
  induction m with
  | zero => rfl
  | succ m ih =>
    rw [Function.iterate_succ_apply', ih]
    unfold step
    rw [hc]

/-- C12: at a capture whose read returns fewer than `sampleBufferSize` values
the collector calls no `fork`, spawns no worker and runs no worker code for
that window; it sets `done`, leaves the loop at the next loop head and does
nothing afterwards.  Conversely a step that spawns a worker, or continues as
the worker, is a capture whose read returned at least `sampleBufferSize`
values, hence exactly `sampleBufferSize` when reads never return more than
requested. -/
theorem no_partial_window (k : Constants) (sys : SystemCalls) (s : Collector)
    (hc : s.control = Control.capture) :
    (sys.freadWindow s.reads < k.sampleBufferSize →
      (step k sys s).spawned = s.spawned ∧ (step k sys s).forks = s.forks ∧
      (step k sys s).actions = s.actions ++ [Action.capture (sys.freadWindow s.reads)] ∧
      (step k sys s).done = true ∧
      (step k sys (step k sys s)).control = Control.left ∧
      ∀ m, ((step k sys)^[m] (step k sys (step k sys s))).control = Control.left ∧
        ((step k sys)^[m] (step k sys (step k sys s))).spawned = s.spawned ∧
        ((step k sys)^[m] (step k sys (step k sys s))).actions
          = s.actions ++ [Action.capture (sys.freadWindow s.reads)]) ∧
    ((step k sys s).spawned ≠ s.spawned ∨ (step k sys s).control = Control.childExit →
      k.sampleBufferSize ≤ sys.freadWindow s.reads ∧
      ((∀ n, sys.freadWindow n ≤ k.sampleBufferSize) →
        sys.freadWindow s.reads = k.sampleBufferSize)) := by
  constructor
  · intro hshort
    have h1 := step_capture_short k sys s hc hshort
    have h2 : step k sys (step k sys s)
        = { step k sys s with control := Control.left } := by
      rw [h1]
      rfl
    have h3 : (step k sys (step k sys s)).control = Control.left := by rw [h2]
    refine ⟨by rw [h1], by rw [h1], by rw [h1], by rw [h1], h3, fun m => ?_⟩
    rw [iterate_left k sys _ h3 m, h2, h1]
    exact ⟨rfl, rfl, rfl⟩
  · intro hsp
    have hfull : ¬ sys.freadWindow s.reads < k.sampleBufferSize := by
      intro hshort
      have h1 := step_capture_short k sys s hc hshort
      rcases hsp with h | h
      · exact h (by rw [h1])
      · rw [h1] at h
        exact Control.noConfusion h
    exact ⟨not_lt.mp hfull, fun hle => le_antisymm (hle _) (not_lt.mp hfull)⟩

/-- Witness of C12: the first read of the run returns 5 values where 8 are
needed; the collector is at its capture point after two steps and has left the
loop two steps later without a worker. -/
theorem no_partial_window_witness :
    (run ⟨3, 2, 2⟩ ⟨fun _ _ => 0, fun _ => 5, fun _ => 1, fun _ => 9⟩ 2).control
        = Control.capture ∧
      (step ⟨3, 2, 2⟩ ⟨fun _ _ => 0, fun _ => 5, fun _ => 1, fun _ => 9⟩
        (step ⟨3, 2, 2⟩ ⟨fun _ _ => 0, fun _ => 5, fun _ => 1, fun _ => 9⟩
          (run ⟨3, 2, 2⟩ ⟨fun _ _ => 0, fun _ => 5, fun _ => 1, fun _ => 9⟩ 2))).control
        = Control.left :=
  ⟨by decide,
    ((no_partial_window ⟨3, 2, 2⟩ ⟨fun _ _ => 0, fun _ => 5, fun _ => 1, fun _ => 9⟩
      (run ⟨3, 2, 2⟩ ⟨fun _ _ => 0, fun _ => 5, fun _ => 1, fun _ => 9⟩ 2) (by decide)).1
      (by decide)).2.2.2.2.1⟩

/-- At the loop head with a worker pending the remainder of the block is
discarded and the wait loop is entered. -/
theorem step_loopHead_busy (k : Constants) (sys : SystemCalls) (s : Collector)
    (hc : s.control = Control.loopHead) (hd : s.done = false) (hb : s.background ≠ 0) :
    step k sys s
      = { s with
          control := Control.waitLoop
          actions := s.actions ++
            [Action.discardRemainder ((k.PERIOD - k.PROCESSING_SIZE) * k.BASE_BAND * 2)] } := by
  unfold step
  rw [hc]
  simp only []
  rw [hd, if_neg (by decide), if_pos hb]

/-- The actions of a single poll that finds the worker running. -/
theorem blockDiscards_one (k : Constants) (sys : SystemCalls) (skips : Nat) :
    blockDiscards k sys skips 1
      = (if 0 = sys.freadSkip skips then
          [Action.discardBlock (k.PERIOD * k.BASE_BAND * 2), Action.sleep]
        else [Action.discardBlock (k.PERIOD * k.BASE_BAND * 2)]) := by
  simp [blockDiscards, List.range_succ]

/-- A poll that finds the worker running discards one whole block. -/
theorem step_wait_running (k : Constants) (sys : SystemCalls) (s : Collector)
    (hc : s.control = Control.waitLoop) (hb : s.background ≠ 0)
    (hrun : ¬ sys.terminated s.polls s.background) :
    step k sys s
      = { s with
          polls := s.polls + 1
          skips := s.skips + 1
          actions := s.actions ++ blockDiscards k sys s.skips 1 } := by
  unfold step
  rw [hc]
  simp only []
  rw [if_pos hb, if_neg hrun, blockDiscards_one]
  by_cases h : 0 = sys.freadSkip s.skips
  · rw [if_pos h, if_pos h]
  · rw [if_neg h, if_neg h]

/-- A poll that observes termination clears `background` and discards nothing. -/
theorem step_wait_terminated (k : Constants) (sys : SystemCalls) (s : Collector)
    (hc : s.control = Control.waitLoop) (hb : s.background ≠ 0)
    (hterm : sys.terminated s.polls s.background) :
    step k sys s
      = { s with
          background := 0
          polls := s.polls + 1
          observed := if 0 < s.background then s.observed + 1 else s.observed
          actions := s.actions ++ [Action.terminationObserved] } := by
  unfold step
  rw [hc]
  simp only []
  rw [if_pos hb, if_pos hterm]

/-- With `background` cleared the wait loop is left for the synchronisation. -/
theorem step_wait_exit (k : Constants) (sys : SystemCalls) (s : Collector)
    (hc : s.control = Control.waitLoop) (hb : s.background = 0) :
    step k sys s = { s with control := Control.synchronize } := by
  unfold step
  rw [hc]
  simp only []
  rw [if_neg (by simpa using hb)]

/-- The synchronisation is followed by the capture. -/
theorem step_synchronize (k : Constants) (sys : SystemCalls) (s : Collector)
    (hc : s.control = Control.synchronize) :
    step k sys s
      = { s with control := Control.capture, actions := s.actions ++ [Action.synchronize] } := by
  unfold step
  rw [hc]

/-- One more poll that finds the worker running adds one block discard. -/
theorem blockDiscards_succ (k : Constants) (sys : SystemCalls) (skips n : Nat) :
    blockDiscards k sys skips (n + 1)
      = blockDiscards k sys skips n ++ blockDiscards k sys (skips + n) 1 := by
  simp only [blockDiscards, List.range_succ, List.flatMap_append, List.range_zero,
    List.nil_append, List.flatMap_cons, List.flatMap_nil, List.append_nil, Nat.add_zero]

/-- The polls that find the worker running discard one whole block each. -/
theorem discardedValues_blockDiscards (k : Constants) (sys : SystemCalls) (skips n : Nat) :
    discardedValues (blockDiscards k sys skips n)
      = List.replicate n (k.PERIOD * k.BASE_BAND * 2) := by
  induction n with
  | zero => rfl
  | succ n ih =>
    rw [blockDiscards_succ, List.replicate_succ']
    unfold discardedValues at ih ⊢
    rw [List.filterMap_append, ih]
    congr 1
    rw [blockDiscards_one]
    split_ifs <;> rfl

/-- The wait loop while the worker is reported running `n` times in a row. -/
theorem iterate_wait_running (k : Constants) (sys : SystemCalls) :
    ∀ (n : Nat) (s : Collector), s.control = Control.waitLoop → s.background ≠ 0 →
      (∀ i, i < n → ¬ sys.terminated (s.polls + i) s.background) →
      (step k sys)^[n] s
        = { s with
            polls := s.polls + n
            skips := s.skips + n
            actions := s.actions ++ blockDiscards k sys s.skips n } := by
  intro n
  induction n with
  | zero =>
    intro s _ _ _
    cases s
    simp only [Function.iterate_zero, id_eq, blockDiscards, List.range_zero, List.flatMap_nil,
      List.append_nil, Nat.add_zero]
  | succ n ih =>
    intro s hc hb hrun
    rw [Function.iterate_succ_apply', ih s hc hb (fun i hi => hrun i (by omega))]
    have h := step_wait_running k sys
      { s with
        polls := s.polls + n
        skips := s.skips + n
        actions := s.actions ++ blockDiscards k sys s.skips n }
      hc hb (hrun n (Nat.lt_succ_self n))
    rw [h, blockDiscards_succ k sys s.skips n, List.append_assoc]
    rfl

/-- C11: if, with a worker pending at the loop head, the worker-status poll
reports `still running` exactly `n` times and then `terminated`, the collector
discards once the remainder of the current block,
`(PERIOD - PROCESSING_SIZE) * BASE_BAND * 2` values, then exactly `n` whole
blocks of `PERIOD * BASE_BAND * 2` values, one per poll that found the worker
running; the poll that observes termination clears `background` and discards
nothing, and the next two steps are the synchronisation and the capture. -/
theorem drop_overrun_accounting (k : Constants) (sys : SystemCalls) (s : Collector) (n : Nat)
    (hc : s.control = Control.loopHead) (hd : s.done = false) (hb : s.background ≠ 0)
    (hrun : ∀ i, i < n → ¬ sys.terminated (s.polls + i) s.background)
    (hterm : sys.terminated (s.polls + n) s.background) :
    (step k sys)^[n + 2] s
      = { s with
          control := Control.waitLoop
          background := 0
          polls := s.polls + n + 1
          skips := s.skips + n
          observed := if 0 < s.background then s.observed + 1 else s.observed
          actions := s.actions ++
            ([Action.discardRemainder ((k.PERIOD - k.PROCESSING_SIZE) * k.BASE_BAND * 2)] ++
              (blockDiscards k sys s.skips n ++ [Action.terminationObserved])) } ∧
    discardedValues
        ([Action.discardRemainder ((k.PERIOD - k.PROCESSING_SIZE) * k.BASE_BAND * 2)] ++
          (blockDiscards k sys s.skips n ++ [Action.terminationObserved]))
      = (k.PERIOD - k.PROCESSING_SIZE) * k.BASE_BAND * 2
          :: List.replicate n (k.PERIOD * k.BASE_BAND * 2) ∧
    ((step k sys)^[n + 3] s).control = Control.synchronize ∧
    ((step k sys)^[n + 3] s).actions = ((step k sys)^[n + 2] s).actions ∧
    ((step k sys)^[n + 4] s).control = Control.capture ∧
    ((step k sys)^[n + 4] s).actions
      = ((step k sys)^[n + 2] s).actions ++ [Action.synchronize] ∧
    ((step k sys)^[n + 4] s).reads = s.reads := by
  have h1 := step_loopHead_busy k sys s hc hd hb
  have h2 := iterate_wait_running k sys n
    { s with
      control := Control.waitLoop
      actions := s.actions ++
        [Action.discardRemainder ((k.PERIOD - k.PROCESSING_SIZE) * k.BASE_BAND * 2)] }
    rfl hb hrun
  have h3 := step_wait_terminated k sys
    { s with
      control := Control.waitLoop
      polls := s.polls + n
      skips := s.skips + n
      actions := s.actions ++
        [Action.discardRemainder ((k.PERIOD - k.PROCESSING_SIZE) * k.BASE_BAND * 2)] ++
        blockDiscards k sys s.skips n }
    rfl hb hterm
  have hwait : (step k sys)^[n + 2] s
      = { s with
          control := Control.waitLoop
          background := 0
          polls := s.polls + n + 1
          skips := s.skips + n
          observed := if 0 < s.background then s.observed + 1 else s.observed
          actions := s.actions ++
            ([Action.discardRemainder ((k.PERIOD - k.PROCESSING_SIZE) * k.BASE_BAND * 2)] ++
              (blockDiscards k sys s.skips n ++ [Action.terminationObserved])) } := by
    rw [Function.iterate_succ_apply', Function.iterate_succ_apply, h1, h2, h3]
    simp only [List.append_assoc]
  have hexit : (step k sys)^[n + 3] s
      = { (step k sys)^[n + 2] s with control := Control.synchronize } := by
    rw [Function.iterate_succ_apply']
    exact step_wait_exit k sys _ (by rw [hwait]) (by rw [hwait])
  have hsync : (step k sys)^[n + 4] s
      = { (step k sys)^[n + 2] s with
          control := Control.capture
          actions := ((step k sys)^[n + 2] s).actions ++ [Action.synchronize] } := by
    rw [Function.iterate_succ_apply', hexit]
    exact step_synchronize k sys _ rfl
  refine ⟨hwait, ?_, by rw [hexit], by rw [hexit], by rw [hsync], by rw [hsync], ?_⟩
  · unfold discardedValues
    rw [List.filterMap_append, List.filterMap_append]
    have := discardedValues_blockDiscards k sys s.skips n
    unfold discardedValues at this
    rw [this]
    simp
  · rw [hsync, hwait]

/-- Witness of C11: after the first capture and fork (three steps) the worker
is reported running twice and then terminated; the remainder (4 values) and
two whole blocks (12 values each) are discarded. -/
theorem drop_overrun_accounting_witness :
    discardedValues
        ((step ⟨3, 2, 2⟩ ⟨fun n pid => if n < 2 then 0 else pid, fun _ => 8, fun _ => 1,
            fun _ => 9⟩)^[2 + 2]
          (run ⟨3, 2, 2⟩ ⟨fun n pid => if n < 2 then 0 else pid, fun _ => 8, fun _ => 1,
            fun _ => 9⟩ 3)).actions
      = [4, 12, 12] := by
  rw [(drop_overrun_accounting ⟨3, 2, 2⟩
    ⟨fun n pid => if n < 2 then 0 else pid, fun _ => 8, fun _ => 1, fun _ => 9⟩
    (run ⟨3, 2, 2⟩ ⟨fun n pid => if n < 2 then 0 else pid, fun _ => 8, fun _ => 1,
      fun _ => 9⟩ 3) 2 (by decide) (by decide) (by decide) (by decide) (by decide)).1]
  decide

/-! ## Which slots the selection pass assigns -/

section AssignedSlots

variable {α : Type} [LinearOrder α] [Zero α]

/-- Successive peaks for `number` slots are successive peaks for fewer slots. -/
theorem SuccessivePeaks.mono {size number fewer : Nat} {magAcc : Nat → α} {b : Nat → Nat}
    (hp : SuccessivePeaks size number magAcc b) (hle : fewer ≤ number) :
    SuccessivePeaks size fewer magAcc b := by
  obtain ⟨h1, h2, h3, h4, h5, h6⟩ := hp
  exact ⟨fun i hi => h1 i (by omega), fun i hi => h2 i (by omega), h3,
    fun i hi => h4 i (by omega), fun i hi => h5 i (by omega), fun i hi => h6 i (by omega)⟩

/-- The magnitudes of successive peaks decrease strictly. -/
theorem SuccessivePeaks.strict {size number : Nat} {magAcc : Nat → α} {b : Nat → Nat}
    (hp : SuccessivePeaks size number magAcc b) :
    ∀ j, j < number → ∀ i, i < j → magAcc (b j) < magAcc (b i) := by
  obtain ⟨-, -, -, hdec, -, -⟩ := hp
  intro j
  induction j with
  | zero => intro _ i hi; exact absurd hi (Nat.not_lt_zero i)
  | succ n ih =>
    intro hn i hi
    rcases Nat.lt_succ_iff_lt_or_eq.mp hi with h | h
    · exact lt_trans (hdec n hn) (ih (by omega) i h)
    · rw [h]; exact hdec n hn

/-- Successive peaks for as many slots as there are distinct positive values
carry all positive values: no positive magnitude lies below the last peak. -/
theorem SuccessivePeaks.exhausted {size : Nat} {magAcc : Nat → α} {b : Nat → Nat}
    (hp : SuccessivePeaks size (positiveValues size magAcc).card magAcc b)
    (hd : 0 < (positiveValues size magAcc).card) :
    ∀ j, j < size →
      ¬ (0 < magAcc j ∧ magAcc j < magAcc (b ((positiveValues size magAcc).card - 1))) := by
  have hstrict := hp.strict
  obtain ⟨hin, hpos, -, -, -, -⟩ := hp
  set d := (positiveValues size magAcc).card with hdef
  have hsub : (Finset.range d).image (fun l => magAcc (b l)) ⊆ positiveValues size magAcc := by
    intro x hx
    obtain ⟨l, hl, rfl⟩ := Finset.mem_image.mp hx
    have hl' := Finset.mem_range.mp hl
    exact (mem_positiveValues size magAcc _).mpr ⟨⟨b l, hin l hl', rfl⟩, hpos l hl'⟩
  have hinj : Set.InjOn (fun l => magAcc (b l)) (Finset.range d : Set Nat) := by
    intro x hx y hy hxy
    have hx' : x < d := Finset.mem_range.mp hx
    have hy' : y < d := Finset.mem_range.mp hy
    rcases Nat.lt_trichotomy x y with h | h | h
    · exact absurd hxy (ne_of_gt (hstrict y hy' x h))
    · exact h
    · exact absurd hxy (ne_of_lt (hstrict x hx' y h))
  have hcard : ((Finset.range d).image (fun l => magAcc (b l))).card = d := by
    rw [Finset.card_image_of_injOn hinj, Finset.card_range]
  have heq : (Finset.range d).image (fun l => magAcc (b l)) = positiveValues size magAcc :=
    Finset.eq_of_subset_of_card_le hsub (by rw [hcard])
  rintro j hj ⟨hpj, hlt⟩
  have hmem : magAcc j ∈ (Finset.range d).image (fun l => magAcc (b l)) := by
    rw [heq]
    exact (mem_positiveValues size magAcc _).mpr ⟨⟨j, hj, rfl⟩, hpj⟩
  obtain ⟨l, hl, hlj⟩ := Finset.mem_image.mp hmem
  have hl' : l < d := Finset.mem_range.mp hl
  rw [← hlj] at hlt
  rcases Nat.lt_or_eq_of_le (Nat.le_sub_one_of_lt hl') with h | h
  · exact absurd hlt (not_lt.mpr (le_of_lt (hstrict (d - 1) (by omega) l h)))
  · rw [h] at hlt
    exact lt_irrefl _ hlt

/-- A scan for a later slot that no bin passes leaves peak and array alone. -/
theorem nextPeakLoop_none (size : Nat) (magAcc : Nat → α) (threshold : α) (i : Nat)
    (binArray : Nat → Int)
    (hnone : ∀ j, j < size → ¬ (0 < magAcc j ∧ magAcc j < threshold)) :
    nextPeakLoop size magAcc threshold i 0 binArray = (0, binArray) := by
  rw [nextPeakLoop_eq_scanLoop]
  rcases scanLoop_spec (fun v => v < threshold) magAcc i (0 : α) binArray size with
    ⟨-, hst⟩ | ⟨j, hj, hpj, hq, -, -, -⟩
  · exact hst
  · exact absurd ⟨hpj, hq⟩ (hnone j hj)

/-- A scan for slot 0 on a spectrum without positive magnitude leaves peak and
array alone. -/
theorem firstPeakLoop_none (size : Nat) (magAcc : Nat → α) (binArray : Nat → Int)
    (hnone : ∀ j, j < size → ¬ 0 < magAcc j) :
    firstPeakLoop size magAcc 0 binArray = (0, binArray) := by
  rw [firstPeakLoop_eq_scanLoop]
  rcases scanLoop_spec (fun _ => True) magAcc 0 (0 : α) binArray size with
    ⟨-, hst⟩ | ⟨j, hj, hpj, -, -, -, -⟩
  · exact hst
  · exact absurd hpj (hnone j hj)

/-- With threshold zero no later slot is assigned. -/
theorem slotLoop_zero_threshold (size : Nat) (magAcc : Nat → α) (binArray : Nat → Int) :
    ∀ count, slotLoop size magAcc count 0 binArray = (0, binArray) := by
  intro count
  induction count with
  | zero => rfl
  | succ n ih =>
    rw [slotLoop_succ, ih]
    exact nextPeakLoop_none size magAcc 0 (n + 1) binArray
      (fun j _ h => lt_irrefl _ (lt_trans h.1 h.2))

/-- The slot loop beyond the last peak: once all `d` distinct positive values
are used up the threshold is zero and the slots from `d` on are as before. -/
theorem slotLoop_exhausted (size : Nat) (magAcc : Nat → α) (b : Nat → Nat)
    (binArray : Nat → Int)
    (hp : SuccessivePeaks size (positiveValues size magAcc).card magAcc b)
    (hd : 0 < (positiveValues size magAcc).card) :
    ∀ extra, slotLoop size magAcc ((positiveValues size magAcc).card - 1 + extra + 1)
        (magAcc (b 0)) (Function.update binArray 0 ((b 0 : Nat) : Int))
      = (0, fun i => if i ≤ (positiveValues size magAcc).card - 1 then ((b i : Nat) : Int)
          else binArray i) := by
  intro extra
  induction extra with
  | zero =>
    rw [Nat.add_zero, slotLoop_succ,
      slotLoop_peaks size _ magAcc b binArray hp _ (by omega)]
    exact nextPeakLoop_none size magAcc _ _ _ (hp.exhausted hd)
  | succ e ih =>
    rw [slotLoop_succ, show (positiveValues size magAcc).card - 1 + (e + 1)
      = (positiveValues size magAcc).card - 1 + e + 1 from rfl, ih]
    exact nextPeakLoop_none size magAcc 0 _ _ (fun j _ h => lt_irrefl _ (lt_trans h.1 h.2))

end AssignedSlots

section PassOutcome

variable {α : Type} [LinearOrder α] [Zero α]

/-- A spectrum has a positive magnitude exactly when it has a distinct positive
value. -/
theorem positiveValues_card_pos (size : Nat) (magAcc : Nat → α) :
    0 < (positiveValues size magAcc).card ↔ ∃ j, j < size ∧ 0 < magAcc j := by
  rw [Finset.card_pos]
  constructor
  · rintro ⟨x, hx⟩
    obtain ⟨⟨j, hj, rfl⟩, hpos⟩ := (mem_positiveValues size magAcc x).mp hx
    exact ⟨j, hj, hpos⟩
  · rintro ⟨j, hj, hpos⟩
    exact ⟨magAcc j, (mem_positiveValues size magAcc _).mpr ⟨⟨j, hj, rfl⟩, hpos⟩⟩

/-- The threshold after slot `i` on a spectrum with `d` distinct positive
values: the magnitude of peak `i` while `i < d`, zero afterwards. -/
theorem thresholdAfter_eq (size : Nat) (magAcc : Nat → α) (b : Nat → Nat)
    (binArray : Nat → Int)
    (hp : SuccessivePeaks size (positiveValues size magAcc).card magAcc b)
    (hd : 0 < (positiveValues size magAcc).card) (i : Nat) :
    thresholdAfter size magAcc binArray i
      = if i < (positiveValues size magAcc).card then magAcc (b i) else 0 := by
  unfold thresholdAfter
  rw [firstPeakLoop_peak size _ magAcc b binArray hd hp]
  simp only []
  by_cases hi : i < (positiveValues size magAcc).card
  · rw [if_pos hi, slotLoop_peaks size _ magAcc b binArray hp i hi]
  · rw [if_neg hi]
    obtain ⟨e, he⟩ : ∃ e, i = (positiveValues size magAcc).card - 1 + e + 1 :=
      ⟨i - (positiveValues size magAcc).card, by omega⟩
    rw [he, slotLoop_exhausted size magAcc b binArray hp hd e]

/-- The array after the pass on a spectrum with `d ≥ 1` distinct positive
values: the first `min number d` slots hold the successive peaks, every other
slot holds what it held before. -/
theorem peakSelect_eq (size number : Nat) (magAcc : Nat → α) (b : Nat → Nat)
    (binArray : Nat → Int) (hnum : 1 ≤ number)
    (hp : SuccessivePeaks size (positiveValues size magAcc).card magAcc b)
    (hd : 0 < (positiveValues size magAcc).card) :
    peakSelect size number magAcc binArray
      = fun i => if i < min number (positiveValues size magAcc).card then ((b i : Nat) : Int)
          else binArray i := by
  unfold peakSelect
  simp only []
  rw [firstPeakLoop_peak size _ magAcc b binArray hd hp]
  simp only []
  by_cases hn : number - 1 < (positiveValues size magAcc).card
  · rw [slotLoop_peaks size _ magAcc b binArray hp (number - 1) hn]
    funext i
    simp only []
    by_cases hi : i ≤ number - 1
    · rw [if_pos hi, if_pos (by rw [lt_min_iff]; omega)]
    · rw [if_neg hi, if_neg (by rw [lt_min_iff]; omega)]
  · obtain ⟨e, he⟩ : ∃ e, number - 1 = (positiveValues size magAcc).card - 1 + e + 1 :=
      ⟨number - 1 - (positiveValues size magAcc).card, by omega⟩
    rw [he, slotLoop_exhausted size magAcc b binArray hp hd e]
    funext i
    simp only []
    by_cases hi : i ≤ (positiveValues size magAcc).card - 1
    · rw [if_pos hi, if_pos (by rw [lt_min_iff]; omega)]
    · rw [if_neg hi, if_neg (by rw [lt_min_iff]; omega)]

/-- The array after the pass on a spectrum without positive magnitude is the
array before the pass. -/
theorem peakSelect_no_positive (size number : Nat) (magAcc : Nat → α) (binArray : Nat → Int)
    (hnone : ∀ j, j < size → ¬ 0 < magAcc j) :
    peakSelect size number magAcc binArray = binArray := by
  unfold peakSelect
  simp only []
  rw [firstPeakLoop_none size magAcc binArray hnone, slotLoop_zero_threshold]

/-- Slot `i` is assigned exactly when `i` is below the number of distinct
positive magnitude values. -/
theorem slotAssigned_iff (size : Nat) (magAcc : Nat → α) (binArray : Nat → Int) (i : Nat) :
    slotAssigned size magAcc binArray i ↔ i < (positiveValues size magAcc).card := by
  by_cases hd : 0 < (positiveValues size magAcc).card
  · obtain ⟨b, hp⟩ := exists_successivePeaks size _ magAcc hd (le_refl _)
    cases i with
    | zero =>
      unfold slotAssigned
      exact ⟨fun _ => hd, fun _ => (positiveValues_card_pos size magAcc).mp hd⟩
    | succ i =>
      show (∃ j, j < size ∧ magAcc j > 0 ∧ magAcc j < thresholdAfter size magAcc binArray i)
        ↔ i + 1 < (positiveValues size magAcc).card
      rw [thresholdAfter_eq size magAcc b binArray hp hd i]
      constructor
      · rintro ⟨j, hj, hpos, hlt⟩
        by_cases hi : i < (positiveValues size magAcc).card
        · rw [if_pos hi] at hlt
          by_contra hnot
          have hlast : i = (positiveValues size magAcc).card - 1 := by omega
          rw [hlast] at hlt
          exact hp.exhausted hd j hj ⟨hpos, hlt⟩
        · rw [if_neg hi] at hlt
          exact absurd (lt_trans hpos hlt) (lt_irrefl _)
      · intro hi
        obtain ⟨hin, hpos, -, hdec, -, -⟩ := hp
        refine ⟨b (i + 1), hin (i + 1) hi, hpos (i + 1) hi, ?_⟩
        rw [if_pos (by omega)]
        exact hdec i hi
  · have hnone : ¬ ∃ j, j < size ∧ 0 < magAcc j :=
      fun h => hd ((positiveValues_card_pos size magAcc).mpr h)
    constructor
    · intro h
      exfalso
      cases i with
      | zero =>
        obtain ⟨j, hj, hpos⟩ := h
        exact hnone ⟨j, hj, hpos⟩
      | succ i =>
        obtain ⟨j, hj, hpos, -⟩ := h
        exact hnone ⟨j, hj, hpos⟩
    · intro h
      omega

end PassOutcome

/-- C13: on a spectrum whose maximum is positive, slot 0 of the PeakSet holds
the lowest-index bin attaining the global maximum, and every later slot that
the pass assigns holds the lowest-index bin among those attaining the largest
magnitude strictly below the magnitude of the previous slot's bin; the content
of an assigned slot does not depend on what the array held before. -/
theorem peak_tie_break {α : Type} [LinearOrder α] [Zero α] (size number : Nat)
    (magAcc : Nat → α) (binArray : Nat → Int) (hnum : 1 ≤ number)
    (hmax : ∃ j, j < size ∧ 0 < magAcc j) :
    (∃ b0 : Nat, b0 < size ∧ peakSelect size number magAcc binArray 0 = (b0 : Int) ∧
      (∀ j, j < size → magAcc j ≤ magAcc b0) ∧ (∀ j, j < b0 → magAcc j < magAcc b0)) ∧
    (∀ i, i + 1 < number → slotAssigned size magAcc binArray (i + 1) →
      ∃ p c : Nat, peakSelect size number magAcc binArray i = (p : Int) ∧
        peakSelect size number magAcc binArray (i + 1) = (c : Int) ∧
        p < size ∧ c < size ∧ 0 < magAcc c ∧ magAcc c < magAcc p ∧
        (∀ j, j < size → magAcc j < magAcc p → magAcc j ≤ magAcc c) ∧
        (∀ j, j < c → magAcc j < magAcc p → magAcc j < magAcc c)) ∧
    (∀ (other : Nat → Int) (i : Nat), i < number → slotAssigned size magAcc binArray i →
      peakSelect size number magAcc binArray i = peakSelect size number magAcc other i) := by
  have hd := (positiveValues_card_pos size magAcc).mpr hmax
  obtain ⟨b, hp⟩ := exists_successivePeaks size _ magAcc hd (le_refl _)
  have hsel := peakSelect_eq size number magAcc b binArray hnum hp hd
  obtain ⟨hin, hpos, htop, hdec, hnext, hfirst⟩ := hp
  have hslot : ∀ i, i < number → i < (positiveValues size magAcc).card →
      peakSelect size number magAcc binArray i = ((b i : Nat) : Int) := by
    intro i hi hid
    rw [hsel]
    exact if_pos (by rw [lt_min_iff]; exact ⟨hi, hid⟩)
  refine ⟨⟨b 0, hin 0 hd, hslot 0 (by omega) hd, htop, ?_⟩, ?_, ?_⟩
  · intro j hj
    exact lt_of_le_of_ne (htop j (lt_trans hj (hin 0 hd))) (hfirst 0 hd j hj)
  · intro i hi hassigned
    have hid : i + 1 < (positiveValues size magAcc).card :=
      (slotAssigned_iff size magAcc binArray (i + 1)).mp hassigned
    refine ⟨b i, b (i + 1), hslot i (by omega) (by omega), hslot (i + 1) hi hid,
      hin i (by omega), hin (i + 1) hid, hpos (i + 1) hid, hdec i hid, hnext i hid, ?_⟩
    intro j hj hlt
    exact lt_of_le_of_ne (hnext i hid j (lt_trans hj (hin (i + 1) hid)) hlt)
      (hfirst (i + 1) hid j hj)
  · intro other i hi hassigned
    have hid : i < (positiveValues size magAcc).card :=
      (slotAssigned_iff size magAcc binArray i).mp hassigned
    rw [hslot i hi hid,
      peakSelect_eq size number magAcc b other hnum ⟨hin, hpos, htop, hdec, hnext, hfirst⟩ hd]
    exact (if_pos (by rw [lt_min_iff]; exact ⟨hi, hid⟩)).symm

/-- Witness of C13: in the spectrum 5, 9, 9, 5 the maximum 9 is attained at bins
1 and 2 and slot 0 receives bin 1. -/
theorem peak_tie_break_witness :
    (∃ j, j < 4 ∧ 0 < (fun j => [5, 9, 9, 5].getD j (0 : Nat)) j) ∧
      peakSet 4 3 (fun j => [5, 9, 9, 5].getD j (0 : Nat)) (fun _ => -1) = [1, 0, -1] ∧
      ∃ b0 : Nat, b0 < 4 ∧
        peakSelect 4 3 (fun j => [5, 9, 9, 5].getD j (0 : Nat)) (fun _ => -1) 0 = (b0 : Int) :=
  ⟨⟨1, by decide, by decide⟩, by decide,
    (peak_tie_break 4 3 (fun j => [5, 9, 9, 5].getD j (0 : Nat)) (fun _ => -1) (by decide)
      ⟨1, by decide, by decide⟩).1.imp (fun _ h => ⟨h.1, h.2.1⟩)⟩

/-- C17: with `d` the number of distinct positive magnitude values of the
spectrum and `number ≥ 1`, one selection pass assigns exactly the slots
`0 .. min number d - 1`: each of them is overwritten with a bin of the spectrum
of positive magnitude, whatever the array held before, and every other slot
holds after the pass what it held before.  A slot of the PeakSet is assigned
exactly when its content after the pass does not depend on its content before;
once a slot is not assigned no later slot is, and on an all-zero spectrum no
slot is assigned at all. -/
theorem assigned_slots {α : Type} [LinearOrder α] [Zero α] (size number : Nat)
    (magAcc : Nat → α) (binArray : Nat → Int) (hnum : 1 ≤ number) :
    (∀ i, i < number →
      (slotAssigned size magAcc binArray i
        ↔ i < min number (positiveValues size magAcc).card)) ∧
    (∀ i, i < min number (positiveValues size magAcc).card →
      ∃ c : Nat, c < size ∧ 0 < magAcc c ∧
        ∀ other : Nat → Int, peakSelect size number magAcc other i = (c : Int)) ∧
    (∀ i, ¬ i < min number (positiveValues size magAcc).card →
      ∀ other : Nat → Int, peakSelect size number magAcc other i = other i) ∧
    (∀ i, i < number →
      (slotAssigned size magAcc binArray i
        ↔ ∀ other : Nat → Int,
            peakSelect size number magAcc other i
              = peakSelect size number magAcc binArray i)) ∧
    (∀ i, ¬ i < min number (positiveValues size magAcc).card →
      peakSelect size number magAcc binArray i = binArray i) ∧
    (∀ i j, i ≤ j → ¬ slotAssigned size magAcc binArray i →
      ¬ slotAssigned size magAcc binArray j) ∧
    ((∀ j, j < size → magAcc j = 0) →
      (positiveValues size magAcc).card = 0 ∧
      ∀ i, ¬ slotAssigned size magAcc binArray i ∧
        peakSelect size number magAcc binArray i = binArray i) := by
  have hkeep : ∀ i, ¬ i < min number (positiveValues size magAcc).card →
      ∀ other : Nat → Int, peakSelect size number magAcc other i = other i := by
    intro i hi other
    by_cases hd : 0 < (positiveValues size magAcc).card
    · obtain ⟨b, hp⟩ := exists_successivePeaks size _ magAcc hd (le_refl _)
      rw [peakSelect_eq size number magAcc b other hnum hp hd]
      exact if_neg hi
    · have hnone : ∀ j, j < size → ¬ 0 < magAcc j := fun j hj hpos =>
        hd ((positiveValues_card_pos size magAcc).mpr ⟨j, hj, hpos⟩)
      rw [peakSelect_no_positive size number magAcc other hnone]
  have hwrite : ∀ i, i < min number (positiveValues size magAcc).card →
      ∃ c : Nat, c < size ∧ 0 < magAcc c ∧
        ∀ other : Nat → Int, peakSelect size number magAcc other i = (c : Int) := by
    intro i hi
    have hid : i < (positiveValues size magAcc).card := (lt_min_iff.mp hi).2
    have hd : 0 < (positiveValues size magAcc).card := by omega
    obtain ⟨b, hp⟩ := exists_successivePeaks size _ magAcc hd (le_refl _)
    refine ⟨b i, hp.1 i hid, hp.2.1 i hid, fun other => ?_⟩
    rw [peakSelect_eq size number magAcc b other hnum hp hd]
    exact if_pos hi
  have hiff : ∀ i, i < number →
      (slotAssigned size magAcc binArray i
        ↔ i < min number (positiveValues size magAcc).card) := by
    intro i hi
    rw [slotAssigned_iff, lt_min_iff]
    exact ⟨fun h => ⟨hi, h⟩, fun h => h.2⟩
  refine ⟨hiff, hwrite, hkeep, ?_, fun i hi => hkeep i hi binArray, ?_, ?_⟩
  · intro i hi
    rw [hiff i hi]
    constructor
    · intro hlt other
      obtain ⟨c, -, -, hc⟩ := hwrite i hlt
      rw [hc other, hc binArray]
    · intro hsame
      by_contra hnot
      have h1 := hsame (fun _ => binArray i + 1)
      rw [hkeep i hnot, hkeep i hnot] at h1
      omega
  · intro i j hij hni hj
    rw [slotAssigned_iff] at hni hj
    omega
  · intro hzero
    have hcard : (positiveValues size magAcc).card = 0 := by
      by_contra hne
      obtain ⟨j, hj, hpos⟩ :=
        (positiveValues_card_pos size magAcc).mp (Nat.pos_of_ne_zero hne)
      rw [hzero j hj] at hpos
      exact lt_irrefl _ hpos
    refine ⟨hcard, fun i => ⟨?_, hkeep i (by rw [hcard]; simp) binArray⟩⟩
    rw [slotAssigned_iff, hcard]
    exact Nat.not_lt_zero i

/-- Witness of C17: the spectrum 5, 9, 9, 5 has two distinct positive values;
of three slots that held -1 the first two are overwritten with the bins 1 and
0 and the third still holds -1 after the pass. -/
theorem assigned_slots_witness :
    (positiveValues 4 (fun j => [5, 9, 9, 5].getD j (0 : Nat))).card = 2 ∧
      peakSelect 4 3 (fun j => [5, 9, 9, 5].getD j (0 : Nat)) (fun _ => -1) 0 = 1 ∧
      peakSelect 4 3 (fun j => [5, 9, 9, 5].getD j (0 : Nat)) (fun _ => -1) 1 = 0 ∧
      (∃ c : Nat, c < 4 ∧ 0 < (fun j => [5, 9, 9, 5].getD j (0 : Nat)) c ∧
        ∀ other : Nat → Int,
          peakSelect 4 3 (fun j => [5, 9, 9, 5].getD j (0 : Nat)) other 1 = (c : Int)) ∧
      peakSelect 4 3 (fun j => [5, 9, 9, 5].getD j (0 : Nat)) (fun _ => -1) 2 = -1 :=
  ⟨by decide, by decide, by decide,
    (assigned_slots 4 3 (fun j => [5, 9, 9, 5].getD j (0 : Nat)) (fun _ => -1)
      (by decide)).2.1 1 (by decide),
    (assigned_slots 4 3 (fun j => [5, 9, 9, 5].getD j (0 : Nat)) (fun _ => -1)
      (by decide)).2.2.1 2 (by decide) (fun _ => -1)⟩

end WSPRWindow
